import Mathlib

/-!
# Verification of `locs` (line counter with recursive directory traversal)

Shallow embedding of `src/main.rs`.  Filesystem paths are lists of
components (`Path`); the external filesystem is a record of pure
functions (`Fs`): the results of `Path::is_file`, `read_dir`,
`DirEntry::file_type` and `File::open`.  I/O errors are error codes
(`Nat`).  A file's byte stream is a list of read events: either a byte
or a mid-stream read error (`Event`), so that the behaviour of
`BufReader::lines()` on failing reads is representable.

The traverser (`FileTraverser`, `traverse`, `map_entry`, `step`, `run`,
`nextItem`) and the driver (`write_info`, `runFiles`, `mainLoop`,
`locsMain`) are translated from the source; `run`, `nextItem` and
`mainLoop` take a step-count fuel because an arbitrary `Fs` may describe
an infinite directory tree (the real `Iterator::next` loop recurses
unboundedly in that case); sufficiency of fuel for finite trees is
proved below.
-/

namespace Locs

/-- A filesystem path, as a list of components. -/
abbrev Path := List String

/-- One read event of a file's byte stream: a data byte, or a read error
with error code `e` (`ErrorKind` other than `Interrupted`). -/
inductive Event where
  | byte (b : Nat)
  | err (e : Nat)
deriving DecidableEq, Repr

/-- The file type reported by `DirEntry::file_type`:  regular file,
directory, or anything else (symlink, special file, ...). -/
inductive FileType where
  | file
  | dir
  | other
deriving DecidableEq, Repr

/-- The external filesystem: pure oracle for the four metadata/IO
operations the program performs.  `readDir` returns the directory's
entries in native enumeration order, each entry either a file name or a
per-entry error (mirroring `ReadDir`'s `io::Result<DirEntry>` items). -/
structure Fs where
  isFile : Path → Bool
  readDir : Path → Except Nat (List (Except Nat String))
  fileType : Path → Except Nat FileType
  openFile : Path → Except Nat (List Event)

/-- A raw directory entry: its full path (`DirEntry::path`) and its file
name (`DirEntry::file_name`). -/
structure DirEntry where
  path : Path
  name : String
deriving DecidableEq, Repr

/-- The `FileInfo` of the source: an opened file handle (its content
stream) together with its path. -/
structure FileInfo where
  file : List Event
  path : Path
deriving DecidableEq, Repr

/-- Constructor `FileInfo::new`. -/
def FileInfo.new (file : List Event) (path : Path) : FileInfo :=
  ⟨file, path⟩

/-- The entries produced by opening directory `d`: each `Ok` name `n`
becomes a `DirEntry` with path `d ++ [n]` (Rust `DirEntry::path` joins
the directory path with the file name); entry errors pass through. -/
def mkCursor (d : Path) (es : List (Except Nat String)) :
    List (Except Nat DirEntry) :=
  es.map (fun r => r.map (fun n => ⟨d ++ [n], n⟩))

deriving instance DecidableEq for Except

/-- Translation of `str::ends_with`: a suffix test on the underlying
character sequences. -/
def strEndsWith (s suffix : String) : Bool :=
  suffix.data.isSuffixOf s.data

/-- Predicate `has_ext` from the source: does the entry's file name end with any
of the extension strings? -/
def has_ext (entry : DirEntry) (exts : List String) : Bool :=
  exts.any (fun ext => strEndsWith entry.name ext)

/-- The `FileTraverser` state: the optional extension filter, the
pending-directories stack (`sub_dirs`, pushed and popped at the end),
and the active directory cursor (`traverser`, remaining entries of the
currently open directory). -/
structure FileTraverser where
  extensions : Option (List String)
  sub_dirs : List Path
  traverser : List (Except Nat DirEntry)
deriving DecidableEq, Repr

/-- Result of `FileTraverser::traverse`: the construction panics on an
empty root list (`dirs[1..]` / `.expect`), fails with the error of
`read_dir` on the first root, or returns the initial state. -/
inductive TraverseRes where
  | panicked
  | failed (e : Nat)
  | ok (t : FileTraverser)
deriving DecidableEq, Repr

/-- Constructor `FileTraverser::traverse`: `sub_dirs = dirs[1..]`, the first root is
opened as the active cursor (`read_dir(dirs[0])?`). -/
def traverse (fs : Fs) (dirs : List Path)
    (extensions : Option (List String)) : TraverseRes :=
  match dirs with
  | [] => .panicked
  | d :: rest =>
    match fs.readDir d with
    | .error e => .failed e
    | .ok es => .ok ⟨extensions, rest, mkCursor d es⟩

/-- Method `FileTraverser::map_entry`, verbatim: unwrap the entry (`entry?`),
query its file type (`entry.file_type()?`); a regular file passing the
(possibly absent) extension filter is opened and returned; a directory
is pushed onto `sub_dirs`; everything else gives `Ok(None)`. -/
def map_entry (fs : Fs) (t : FileTraverser)
    (entry : Except Nat DirEntry) :
    FileTraverser × Except Nat (Option FileInfo) :=
  match entry with
  | .error e => (t, .error e)
  | .ok en =>
    match fs.fileType en.path with
    | .error e => (t, .error e)
    | .ok ft =>
      if ft = FileType.file then
        match t.extensions with
        | some exts =>
          if has_ext en exts then
            (t, (fs.openFile en.path).map (fun f => some (FileInfo.new f en.path)))
          else
            (t, .ok none)
        | none =>
          (t, (fs.openFile en.path).map (fun f => some (FileInfo.new f en.path)))
      else if ft = FileType.dir then
        ({ t with sub_dirs := t.sub_dirs ++ [en.path] }, .ok none)
      else
        (t, .ok none)

/-- One iteration of the `loop` in `Iterator::next for FileTraverser`:
either an item is returned (`yield`), the loop continues with a new
state (`cont`), or the sequence terminates (`stop`). -/
inductive StepRes where
  | yieldItem (i : Except Nat FileInfo) (t : FileTraverser)
  | cont (t : FileTraverser)
  | stop
deriving DecidableEq, Repr

/-- The body of the `loop` in `next`: if the cursor has an entry, run
`map_entry` on it and yield its result if it is `Some`; if the cursor is
exhausted, pop the last pending directory (`sub_dirs.pop()?`) -- if none
remains the sequence stops -- and open it as the new cursor, a failed
open being yielded as an error item. -/
def step (fs : Fs) (t : FileTraverser) : StepRes :=
  match t.traverser with
  | e :: rest =>
    let p := map_entry fs { t with traverser := rest } e
    match p.2 with
    | .ok none => .cont p.1
    | .ok (some fi) => .yieldItem (.ok fi) p.1
    | .error er => .yieldItem (.error er) p.1
  | [] =>
    match t.sub_dirs.getLast? with
    | none => .stop
    | some d =>
      match fs.readDir d with
      | .error er => .yieldItem (.error er) ⟨t.extensions, t.sub_dirs.dropLast, []⟩
      | .ok es => .cont ⟨t.extensions, t.sub_dirs.dropLast, mkCursor d es⟩

/-- Ghost observation: the directory (if any) that `step` opens (pops
and passes to `read_dir`) from state `t`. -/
def stepOpened (t : FileTraverser) : List Path :=
  match t.traverser with
  | _ :: _ => []
  | [] =>
    match t.sub_dirs.getLast? with
    | none => []
    | some d => [d]

/-- Method `Iterator::next`, fueled by a bound on loop iterations:
`some (some i, t')` = item `i` produced leaving state `t'`,
`some (none, t')` = sequence terminated, `none` = fuel exhausted. -/
def nextItem (fs : Fs) : Nat → FileTraverser →
    Option (Option (Except Nat FileInfo) × FileTraverser)
  | 0, _ => none
  | fuel + 1, t =>
    match step fs t with
    | .stop => some (none, t)
    | .yieldItem i t' => some (some i, t')
    | .cont t' => nextItem fs fuel t'

/-- The whole item sequence of the traverser together with the trace of
directories opened, obtained by running `step` to termination;
`none` = fuel exhausted. -/
def run (fs : Fs) : Nat → FileTraverser →
    Option (List (Except Nat FileInfo) × List Path)
  | 0, _ => none
  | fuel + 1, t =>
    match step fs t with
    | .stop => some ([], [])
    | .yieldItem i t' =>
      (run fs fuel t').map (fun r => (i :: r.1, stepOpened t ++ r.2))
    | .cont t' =>
      (run fs fuel t').map (fun r => (r.1, stepOpened t ++ r.2))

/-- Method `BufRead::read_line` on the modelled stream (restricted to what
`Lines` observes): consume events until a newline byte (kept, like
`read_until`), the end of the stream, or a read error, which is returned
as `Err` (the error event is consumed, bytes read before it are
dropped with the discarded buffer). -/
def read_line : List Event → Except Nat (List Nat) × List Event
  | [] => (.ok [], [])
  | .err e :: rest => (.error e, rest)
  | .byte b :: rest =>
    if b = 10 then
      (.ok [b], rest)
    else
      let p := read_line rest
      (p.1.map (fun l => b :: l), p.2)

/-- Method `Lines::next`: `None` exactly when `read_line` reads zero bytes
(the stream is exhausted); otherwise the `read_line` result -- an `Err`
from a failing read is an ordinary `Some` item of the iterator. -/
def lines_next (s : List Event) :
    Option (Except Nat (List Nat) × List Event) :=
  match s with
  | [] => none
  | _ :: _ => some (read_line s)

/-- Method `Iterator::count` over `Lines`, fueled (each item consumes at least
one event, so `s.length` fuel suffices). -/
def countLinesGo : Nat → List Event → Nat
  | 0, _ => 0
  | fuel + 1, s =>
    match lines_next s with
    | none => 0
    | some r => 1 + countLinesGo fuel r.2

/-- The Line Counter: `BufReader::new(file).lines().count()`. -/
def countLines (s : List Event) : Nat :=
  countLinesGo s.length s

/-- Function `write_info`: count the file's lines, add to the running total, and
emit one `path\tloc` output line.  Returns the emitted line and the new
total.  (The `writeln!` to stdout is external and assumed to succeed.) -/
def write_info (file : List Event) (path : Path) (total : Nat) :
    (Path × Nat) × Nat :=
  let loc := countLines file
  ((path, loc), total + loc)

/-- Outcome of a run of `main`: `ok lines total` = all files processed,
per-file lines `lines` emitted followed by the `Total: ...` summary;
`err lines e` = the run aborted with I/O error `e` (non-zero exit) after
emitting `lines`, no summary printed; `panicked` = a panic. -/
inductive RunResult where
  | ok (lines : List (Path × Nat)) (total : Nat)
  | err (lines : List (Path × Nat)) (e : Nat)
  | panicked
deriving DecidableEq, Repr

/-- The first `for` loop of `main`: each direct file argument is opened
(`File::open(&file_path)?`, failure aborting the run) and passed to
`write_info`; the extension filter is never consulted. -/
def runFiles (fs : Fs) : List Path → List (Path × Nat) → Nat → RunResult
  | [], ls, total => .ok ls total
  | p :: rest, ls, total =>
    match fs.openFile p with
    | .error e => .err ls e
    | .ok c =>
      let w := write_info c p total
      runFiles fs rest (ls ++ [w.1]) w.2

/-- The second `for` loop of `main`: pull items from the traverser
(`step` to yield), abort on the first error item (`file_info?`),
otherwise `write_info` the file; on termination of the sequence `main`
prints the summary. -/
def mainLoop (fs : Fs) : Nat → FileTraverser → List (Path × Nat) → Nat →
    Option RunResult
  | 0, _, _, _ => none
  | fuel + 1, t, ls, total =>
    match step fs t with
    | .stop => some (.ok ls total)
    | .yieldItem (.error e) _ => some (.err ls e)
    | .yieldItem (.ok fi) t' =>
      let w := write_info fi.file fi.path total
      mainLoop fs fuel t' (ls ++ [w.1]) w.2
    | .cont t' => mainLoop fs fuel t' ls total

/-- Function `main`: partition the argument paths by `is_file`, count the direct
files, then (if any directories remain) construct the traverser --
its `?` propagating a failure on the first root -- and drain it;
finally print the summary line with the running total. -/
def locsMain (fs : Fs) (paths : List Path)
    (extensions : Option (List String)) (fuel : Nat) : Option RunResult :=
  match runFiles fs (paths.partition fs.isFile).1 [] 0 with
  | .err ls e => some (.err ls e)
  | .panicked => some .panicked
  | .ok ls total =>
    if (paths.partition fs.isFile).2.isEmpty then
      some (.ok ls total)
    else
      match traverse fs (paths.partition fs.isFile).2 extensions with
      | .panicked => some .panicked
      | .failed e => some (.err ls e)
      | .ok t => mainLoop fs fuel t ls total

/-! ## Concrete filesystems used as witnesses -/

/-- A filesystem with the single regular file `f` whose byte stream
produces a read error between two data bytes. -/
def fsC1 : Fs where
  isFile := fun p => p = ["f"]
  readDir := fun _ => .error 2
  fileType := fun _ => .error 3
  openFile := fun p =>
    if p = ["f"] then .ok [.byte 97, .err 5, .byte 98] else .error 4

/-- A small well-formed filesystem: the directory `r` contains the
regular files `a.rs` and `b.md`, a subdirectory `sub` holding `c.rs`,
and a symlink `link`; `f.txt` is a regular file usable as a direct
argument; every other path (e.g. `nope`) neither is a file nor can be
opened as a directory. -/
def fsW : Fs where
  isFile := fun p => p = ["f.txt"]
  readDir := fun p =>
    if p = ["r"] then .ok [.ok "a.rs", .ok "sub", .ok "b.md", .ok "link"]
    else if p = ["r", "sub"] then .ok [.ok "c.rs"]
    else .error 7
  fileType := fun p =>
    if p = ["r", "sub"] then .ok .dir
    else if p = ["r", "link"] then .ok .other
    else if p = ["f.txt"] ∨ p = ["r", "a.rs"] ∨ p = ["r", "b.md"] ∨
        p = ["r", "sub", "c.rs"] then .ok .file
    else .error 3
  openFile := fun p =>
    if p = ["f.txt"] then .ok [.byte 97, .byte 10, .byte 98]
    else if p = ["r", "a.rs"] then .ok [.byte 10]
    else if p = ["r", "b.md"] then .ok []
    else if p = ["r", "sub", "c.rs"] then .ok [.byte 99]
    else .error 4

/-! ## Derived notions used to state and prove the traversal claims -/

/-- The directory path (if any) that classifying entry `e` pushes onto
the pending list. -/
def entryDir (fs : Fs) (e : Except Nat DirEntry) : Option Path :=
  match e with
  | .error _ => none
  | .ok en =>
    match fs.fileType en.path with
    | .ok .dir => some en.path
    | _ => none

/-- Whether entry `en` passes the (possibly absent) extension filter. -/
def passesFilter (x : Option (List String)) (en : DirEntry) : Bool :=
  match x with
  | none => true
  | some exts => has_ext en exts

/-- The item component of `map_entry`'s result. -/
def entryRes (fs : Fs) (x : Option (List String))
    (e : Except Nat DirEntry) : Except Nat (Option FileInfo) :=
  match e with
  | .error er => .error er
  | .ok en =>
    match fs.fileType en.path with
    | .error er => .error er
    | .ok .file =>
      if passesFilter x en then
        (fs.openFile en.path).map (fun f => some (FileInfo.new f en.path))
      else .ok none
    | .ok .dir => .ok none
    | .ok .other => .ok none

/-- The paths of the well-read (`Ok`) entries of a cursor. -/
def okPaths (cur : List (Except Nat DirEntry)) : List Path :=
  cur.filterMap (fun e =>
    match e with
    | .ok en => some en.path
    | .error _ => none)

/-- The paths of the successfully yielded files of an item list. -/
def filePaths (is : List (Except Nat FileInfo)) : List Path :=
  is.filterMap (fun i =>
    match i with
    | .ok fi => some fi.path
    | .error _ => none)

/-- The names of the well-read entries of a directory listing. -/
def okNames (es : List (Except Nat String)) : List String :=
  es.filterMap (fun r =>
    match r with
    | .ok n => some n
    | .error _ => none)

/-- Relation `below q p`: `q` is a path-prefix of `p` (so `p` lies in the
subtree rooted at `q`; `below q q` holds). -/
def below (q p : Path) : Prop := p.take q.length = q

instance (q p : Path) : Decidable (below q p) := by
  unfold below
  infer_instance

/-- A depth bound rendering "the directory tree is finite": at depth
`N` and beyond, no directory has entries. -/
def FiniteFs (fs : Fs) (N : Nat) : Prop :=
  ∀ p : Path, N ≤ p.length → ∀ es, fs.readDir p = .ok es → es = []

/-- Real directories list each name at most once. -/
def NodupNames (fs : Fs) : Prop :=
  ∀ p es, fs.readDir p = .ok es → (okNames es).Nodup

/-- The directories reachable from the given roots: the roots
themselves, and every well-read entry of a reachable directory whose
file type is `dir`. -/
inductive ReachDir (fs : Fs) (roots : List Path) : Path → Prop where
  | root (p : Path) : p ∈ roots → ReachDir fs roots p
  | child (p : Path) (es : List (Except Nat String)) (n : String) :
      ReachDir fs roots p → fs.readDir p = .ok es → Except.ok n ∈ es →
      fs.fileType (p ++ [n]) = .ok .dir → ReachDir fs roots (p ++ [n])

/-- How `main`'s traversal loop consumes an item sequence: stop with an
error on the first error item (`file_info?`), otherwise `write_info`
each file and finish with the summary. -/
def consume : List (Except Nat FileInfo) → List (Path × Nat) → Nat →
    RunResult
  | [], ls, total => .ok ls total
  | .error e :: _, ls, _ => .err ls e
  | .ok fi :: rest, ls, total =>
    let w := write_info fi.file fi.path total
    consume rest (ls ++ [w.1]) w.2

/-- One entry's contribution to the termination potential, given a
weight function `w` for discovered subdirectories. -/
def entryWgo (w : Path → Nat) (fs : Fs) (e : Except Nat DirEntry) : Nat :=
  1 + (match entryDir fs e with
       | some p => 1 + w p
       | none => 0)

/-- Fuel-indexed weight of the subtree rooted at directory `d`: the
total number of loop iterations the traverser spends below `d`. -/
def subW (fs : Fs) : Nat → Path → Nat
  | 0, _ => 0
  | g + 1, d =>
    match fs.readDir d with
    | .error _ => 0
    | .ok es => ((mkCursor d es).map (entryWgo (subW fs g) fs)).sum

/-- Entry weight at depth fuel `g`. -/
def entryW (fs : Fs) (g : Nat) : Except Nat DirEntry → Nat :=
  entryWgo (subW fs g) fs

/-- Termination potential of a traverser state: remaining work in the
cursor plus remaining work in the pending directories. -/
def pot (fs : Fs) (g : Nat) (t : FileTraverser) : Nat :=
  (t.traverser.map (entryW fs g)).sum +
    (t.sub_dirs.map (fun d => 1 + subW fs g d)).sum

/-- Well-formedness of a traverser state: pending directories are
pairwise incomparable under `below`, the cursor's entry paths are
pairwise incomparable, and no pending directory is comparable with any
cursor entry path.  This is the rendering of "the pending directories
and cursor entries describe disjoint subtrees" (no symlink cycles, no
overlapping roots). -/
structure StWF (fs : Fs) (t : FileTraverser) : Prop where
  subPW : t.sub_dirs.Pairwise (fun a b => ¬ below a b ∧ ¬ below b a)
  curPW : (okPaths t.traverser).Pairwise (fun a b => ¬ below a b ∧ ¬ below b a)
  crossPW : ∀ q ∈ t.sub_dirs, ∀ p ∈ okPaths t.traverser,
    ¬ below q p ∧ ¬ below p q

/-- The content `File::open` returns for `p` when it succeeds (and `[]`
when it fails; used only where success is separately known). -/
def openedContent (fs : Fs) (p : Path) : List Event :=
  match fs.openFile p with
  | .ok c => c
  | .error _ => []

/-! ## Line-counting lemmas -/

theorem read_line_length (e : Event) (s : List Event) :
    (read_line (e :: s)).2.length ≤ s.length := by
  induction s generalizing e with
  | nil =>
    cases e with
    | byte b =>
      by_cases hb : b = 10 <;> simp [read_line, hb]
    | err er => simp [read_line]
  | cons e' s ih =>
    cases e with
    | byte b =>
      by_cases hb : b = 10
      · simp [read_line, hb]
      · have := ih e'
        simp only [read_line, hb, if_false, List.length_cons] at this ⊢
        omega
    | err er => simp [read_line]

theorem countLinesGo_stable (f : Nat) :
    ∀ (g : Nat) (s : List Event), s.length ≤ f → s.length ≤ g →
      countLinesGo f s = countLinesGo g s := by
  induction f with
  | zero =>
    intro g s hf _
    have : s = [] := List.length_eq_zero.mp (Nat.le_zero.mp hf)
    subst this
    cases g <;> simp [countLinesGo, lines_next]
  | succ f ih =>
    intro g s hf hg
    cases s with
    | nil => cases g <;> simp [countLinesGo, lines_next]
    | cons e s' =>
      cases g with
      | zero => simp at hg
      | succ g' =>
        simp only [countLinesGo, lines_next]
        have hlen := read_line_length e s'
        have h1 : (read_line (e :: s')).2.length ≤ f := by
          simp at hf; omega
        have h2 : (read_line (e :: s')).2.length ≤ g' := by
          simp at hg; omega
        rw [ih g' _ h1 h2]

theorem countLines_nil : countLines [] = 0 := rfl

theorem countLines_cons (e : Event) (s : List Event) :
    countLines (e :: s) = 1 + countLines (read_line (e :: s)).2 := by
  have hlen := read_line_length e s
  unfold countLines
  simp only [List.length_cons, countLinesGo, lines_next]
  rw [countLinesGo_stable s.length _ _ hlen (le_refl _)]

theorem countLines_err_cons (e : Nat) (s : List Event) :
    countLines (Event.err e :: s) = 1 + countLines s := by
  rw [countLines_cons]; rfl

theorem countLines_nl_cons (s : List Event) :
    countLines (Event.byte 10 :: s) = 1 + countLines s := by
  rw [countLines_cons]; rfl

theorem countLines_byte_cons {b : Nat} (hb : b ≠ 10) (s : List Event) :
    countLines (Event.byte b :: s) = if s = [] then 1 else countLines s := by
  rw [countLines_cons]
  simp only [read_line, hb, if_false]
  cases s with
  | nil => simp [read_line, countLines_nil]
  | cons e s' =>
    simp only [List.cons_ne_self, if_neg (List.cons_ne_nil e s')]
    rw [countLines_cons e s']

/-- Splitting lemma: a read error after `pre` data bytes and before
`post` is counted as terminating one extra line item. -/
theorem countLines_err_split (pre : List Nat) (e : Nat) (post : List Event) :
    countLines (pre.map Event.byte ++ Event.err e :: post) =
      pre.count 10 + 1 + countLines post := by
  induction pre with
  | nil => simp [countLines_err_cons]
  | cons b pre ih =>
    by_cases hb : b = 10
    · subst hb
      simp only [List.map_cons, List.cons_append, countLines_nl_cons, ih,
        List.count_cons]
      simp
      omega
    · have hne : pre.map Event.byte ++ Event.err e :: post ≠ [] := by
        simp
      simp only [List.map_cons, List.cons_append,
        countLines_byte_cons (fun h => hb h), if_neg hne, ih, List.count_cons]
      simp [hb]

/-- C10: for every readable byte stream (a stream of data bytes with no
read errors), the Line Counter returns the number of newline bytes when
the stream is empty or ends with a newline, and that number plus one
otherwise; in particular an empty file counts 0 lines and a final
unterminated line counts as one line. -/
theorem c10_line_count (s : List Nat) :
    countLines (s.map Event.byte) =
      if s = [] ∨ s.getLast? = some 10 then s.count 10 else s.count 10 + 1 := by
  induction s with
  | nil => simp [countLines_nil]
  | cons b s ih =>
    by_cases hb : b = 10
    · subst hb
      simp only [List.map_cons, countLines_nl_cons, ih]
      cases s with
      | nil => simp
      | cons c s' =>
        simp only [List.getLast?_cons_cons, List.count_cons]
        by_cases hc : (c :: s').getLast? = some 10
        · simp [hc]
          omega
        · simp [hc, List.cons_ne_nil]
          omega
    · cases s with
      | nil =>
        simp [List.map_cons, countLines_byte_cons (fun h => hb h), hb,
          List.count_cons]
      | cons c s' =>
        calc countLines ((b :: c :: s').map Event.byte)
            = countLines ((c :: s').map Event.byte) := by
              simp only [List.map_cons]
              rw [countLines_byte_cons (fun h => hb h)]
              simp
          _ = _ := by
              rw [ih]
              by_cases hc : (c :: s').getLast? = some 10 <;>
                simp [List.count_cons, hb, List.getLast?_cons_cons, hc]

/-- C1 (counterexample): on a file whose byte stream produces a read
error between two bytes, the run does not abort: it completes with the
summary, reporting the count 2 that was computed from the erroneous
stream (the `Err` item of `lines()` is counted like a line by
`count()`).  This falsifies the claim that a mid-stream read failure
propagates as an I/O failure and aborts the run. -/
theorem c1_counterexample :
    fsC1.openFile ["f"] = .ok [.byte 97, .err 5, .byte 98] ∧
    locsMain fsC1 [["f"]] none 0 =
      some (.ok [(["f"], 2)] 2) := by
  constructor
  · rfl
  · rfl

/-- C1 (amended): a read failure mid-stream while counting a file's
lines does not propagate as an I/O failure: `lines().count()` counts
the failed read attempt as one more item (each error event terminates
one counted line), `write_info` reports a count for the file as usual,
and the run is not aborted by the failure. -/
theorem c1_amended_read_error_swallowed (pre : List Nat) (e : Nat)
    (post : List Event) (path : Path) (total : Nat) :
    countLines (pre.map Event.byte ++ Event.err e :: post) =
      pre.count 10 + 1 + countLines post ∧
    write_info (pre.map Event.byte ++ Event.err e :: post) path total =
      ((path, pre.count 10 + 1 + countLines post),
        total + (pre.count 10 + 1 + countLines post)) := by
  refine ⟨countLines_err_split pre e post, ?_⟩
  unfold write_info
  rw [countLines_err_split pre e post]

/-- C4: when the active cursor is exhausted and opening the next
pending directory fails, the pull operation surfaces that failure as
the next produced item (leaving a state from which iteration can
continue), and the sequence terminates (`step` returns `stop`, which
`nextItem` reports as no further item) exactly when the cursor is
exhausted and the pending-directories list is empty. -/
theorem c4_open_failure_surfaced (fs : Fs) :
    (∀ (x : Option (List String)) (ds : List Path) (d : Path) (e : Nat)
        (fuel : Nat), fs.readDir d = .error e →
      nextItem fs (fuel + 1) ⟨x, ds ++ [d], []⟩ =
        some (some (.error e), ⟨x, ds, []⟩)) ∧
    (∀ t : FileTraverser,
      step fs t = .stop ↔ t.traverser = [] ∧ t.sub_dirs = []) := by
  constructor
  · intro x ds d e fuel h
    have hstep : step fs ⟨x, ds ++ [d], []⟩ =
        .yieldItem (.error e) ⟨x, ds, []⟩ := by
      simp only [step, List.getLast?_concat, h, List.dropLast_concat]
    simp only [nextItem, hstep]
  · intro t
    obtain ⟨x, ds, cur⟩ := t
    constructor
    · intro h
      cases cur with
      | cons en rest =>
        exfalso
        simp only [step] at h
        rcases hm : (map_entry fs ⟨x, ds, rest⟩ en).2 with er | fi
        · rw [hm] at h; cases h
        · cases fi <;> rw [hm] at h <;> cases h
      | nil =>
        simp only [step] at h
        cases hl : ds.getLast? with
        | none => exact ⟨rfl, List.getLast?_eq_none_iff.mp hl⟩
        | some d =>
          cases hr : fs.readDir d <;> simp [hl, hr] at h
    · rintro ⟨h1, h2⟩
      subst h1; subst h2
      rfl

/-- C4 witness: on a filesystem where every directory open fails, a
traverser with exhausted cursor and one pending directory produces the
open error as the next item; the all-empty state stops. -/
theorem c4_witness :
    nextItem fsC1 1 ⟨none, [["a"]] ++ [["d"]], []⟩ =
      some (some (.error 2), ⟨none, [["a"]], []⟩) ∧
    (step fsC1 ⟨none, [], []⟩ = .stop ↔
      ([] : List (Except Nat DirEntry)) = [] ∧ ([] : List Path) = []) :=
  ⟨(c4_open_failure_surfaced fsC1).1 none [["a"]] ["d"] 2 0 rfl,
    (c4_open_failure_surfaced fsC1).2 ⟨none, [], []⟩⟩

/-- C5: constructing the traverser on a non-empty root list fails (with
error `e`) precisely when opening the first root as a directory fails
(with that error); on success the traverser starts with the remaining
roots pending and the first root's entries as cursor; on an empty root
list the construction panics (slicing `dirs[1..]` / `.expect`) instead
of returning a recoverable error. -/
theorem c5_construction (fs : Fs) :
    (∀ x, traverse fs [] x = .panicked) ∧
    (∀ x d rest e,
      traverse fs (d :: rest) x = .failed e ↔ fs.readDir d = .error e) ∧
    (∀ x d rest es, fs.readDir d = .ok es →
      traverse fs (d :: rest) x = .ok ⟨x, rest, mkCursor d es⟩) := by
  refine ⟨fun _ => rfl, ?_, ?_⟩
  · intro x d rest e
    constructor
    · intro h
      simp only [traverse] at h
      cases hr : fs.readDir d <;> rw [hr] at h
      · cases h; rfl
      · cases h
    · intro h
      simp [traverse, h]
  · intro x d rest es h
    simp [traverse, h]

/-- C5 witness: the construction panics on `[]`, fails on a root whose
open fails, and succeeds on an openable root. -/
theorem c5_witness :
    traverse fsC1 [] none = .panicked ∧
    (traverse fsC1 [["d"]] none = .failed 2 ↔
      fsC1.readDir ["d"] = .error 2) ∧
    traverse fsW [["r"]] none =
      .ok ⟨none, [],
        mkCursor ["r"] [.ok "a.rs", .ok "sub", .ok "b.md", .ok "link"]⟩ :=
  ⟨(c5_construction fsC1).1 none,
    (c5_construction fsC1).2.1 none ["d"] [] 2,
    (c5_construction fsW).2.2 none ["r"] []
      [.ok "a.rs", .ok "sub", .ok "b.md", .ok "link"] rfl⟩

/-! ## Basic traverser lemmas -/

theorem map_entry_eq (fs : Fs) (t : FileTraverser)
    (e : Except Nat DirEntry) :
    map_entry fs t e =
      ({ t with sub_dirs := t.sub_dirs ++ (entryDir fs e).toList },
        entryRes fs t.extensions e) := by
  obtain ⟨tx, tds, tcur⟩ := t
  cases e with
  | error er => simp [map_entry, entryDir, entryRes]
  | ok en =>
    cases hft : fs.fileType en.path with
    | error er => simp [map_entry, entryDir, entryRes, hft]
    | ok ft =>
      cases ft with
      | file =>
        cases hx : tx with
        | none =>
          simp [map_entry, entryDir, entryRes, hft, hx, passesFilter]
        | some exts =>
          by_cases hh : has_ext en exts <;>
            simp [map_entry, entryDir, entryRes, hft, hx, passesFilter, hh]
      | dir => simp [map_entry, entryDir, entryRes, hft]
      | other => simp [map_entry, entryDir, entryRes, hft]

theorem step_cons (fs : Fs) (x : Option (List String)) (ds : List Path)
    (en : Except Nat DirEntry) (rest : List (Except Nat DirEntry)) :
    step fs ⟨x, ds, en :: rest⟩ =
      match entryRes fs x en with
      | .ok none => .cont ⟨x, ds ++ (entryDir fs en).toList, rest⟩
      | .ok (some fi) =>
        .yieldItem (.ok fi) ⟨x, ds ++ (entryDir fs en).toList, rest⟩
      | .error er =>
        .yieldItem (.error er) ⟨x, ds ++ (entryDir fs en).toList, rest⟩ := by
  simp only [step, map_entry_eq]

theorem stepOpened_cons (x : Option (List String)) (ds : List Path)
    (en : Except Nat DirEntry) (rest : List (Except Nat DirEntry)) :
    stepOpened ⟨x, ds, en :: rest⟩ = [] := rfl

theorem stepOpened_pop (x : Option (List String)) (ds : List Path)
    (d : Path) :
    stepOpened ⟨x, ds ++ [d], []⟩ = [d] := by
  simp [stepOpened, List.getLast?_concat]

theorem run_succ_stop {fs : Fs} {t : FileTraverser} (fuel : Nat)
    (h : step fs t = .stop) :
    run fs (fuel + 1) t = some ([], []) := by
  simp only [run, h]

theorem run_succ_yield {fs : Fs} {t t' : FileTraverser}
    {i : Except Nat FileInfo} (fuel : Nat)
    (h : step fs t = .yieldItem i t') :
    run fs (fuel + 1) t =
      (run fs fuel t').map (fun r => (i :: r.1, stepOpened t ++ r.2)) := by
  simp only [run, h]

theorem run_succ_cont {fs : Fs} {t t' : FileTraverser} (fuel : Nat)
    (h : step fs t = .cont t') :
    run fs (fuel + 1) t =
      (run fs fuel t').map (fun r => (r.1, stepOpened t ++ r.2)) := by
  simp only [run, h]

theorem run_mono {fs : Fs} :
    ∀ {fuel fuel' : Nat} {t : FileTraverser}
      {r : List (Except Nat FileInfo) × List Path},
      fuel ≤ fuel' → run fs fuel t = some r → run fs fuel' t = some r := by
  intro fuel
  induction fuel with
  | zero => intro fuel' t r _ h; cases h
  | succ f ih =>
    intro fuel' t r hle h
    obtain ⟨f', rfl⟩ : ∃ f', fuel' = f' + 1 := by
      cases fuel' with
      | zero => omega
      | succ f' => exact ⟨f', rfl⟩
    have hle' : f ≤ f' := by omega
    cases hs : step fs t with
    | stop =>
      rw [run_succ_stop f hs] at h
      rw [run_succ_stop f' hs]
      exact h
    | yieldItem i t' =>
      rw [run_succ_yield f hs] at h
      rw [run_succ_yield f' hs]
      obtain ⟨r', hr', rfl⟩ := Option.map_eq_some'.mp h
      rw [ih hle' hr']
      rfl
    | cont t' =>
      rw [run_succ_cont f hs] at h
      rw [run_succ_cont f' hs]
      obtain ⟨r', hr', rfl⟩ := Option.map_eq_some'.mp h
      rw [ih hle' hr']
      rfl

/-- Frame property of the explicit stack: directories `ds1` queued
below `ds2` are untouched until the whole traversal above them (cursor
`cur` and stack `ds2`, including everything either discovers) has
finished; the item and opened-directory sequences decompose
accordingly. -/
theorem run_frame {fs : Fs} :
    ∀ (fuel : Nat) (x : Option (List String)) (ds1 ds2 : List Path)
      (cur : List (Except Nat DirEntry)) (is : List (Except Nat FileInfo))
      (os : List Path),
      run fs fuel ⟨x, ds1 ++ ds2, cur⟩ = some (is, os) →
      ∃ f1 is1 os1 f2 is2 os2,
        run fs f1 ⟨x, ds2, cur⟩ = some (is1, os1) ∧
        run fs f2 ⟨x, ds1, []⟩ = some (is2, os2) ∧
        is = is1 ++ is2 ∧ os = os1 ++ os2 := by
  intro fuel
  induction fuel with
  | zero => intro x ds1 ds2 cur is os h; cases h
  | succ f ih =>
    intro x ds1 ds2 cur is os h
    cases cur with
    | cons en rest =>
      have hso :
          stepOpened ⟨x, ds1 ++ ds2, en :: rest⟩ = [] := rfl
      cases hr : entryRes fs x en with
      | ok oi =>
        cases oi with
        | none =>
          have hs : step fs ⟨x, ds1 ++ ds2, en :: rest⟩ =
              .cont ⟨x, (ds1 ++ ds2) ++ (entryDir fs en).toList, rest⟩ := by
            rw [step_cons, hr]
          rw [run_succ_cont f hs] at h
          obtain ⟨⟨is', os'⟩, hrun, heq⟩ := Option.map_eq_some'.mp h
          simp only [hso, List.nil_append] at heq
          injection heq with hi ho
          subst hi; subst ho
          rw [List.append_assoc] at hrun
          obtain ⟨f1, is1, os1, f2, is2, os2, h1, h2, hieq, hoeq⟩ :=
            ih x ds1 (ds2 ++ (entryDir fs en).toList) rest is' os' hrun
          refine ⟨f1 + 1, is1, os1, f2, is2, os2, ?_, h2, hieq, hoeq⟩
          have hs2 : step fs ⟨x, ds2, en :: rest⟩ =
              .cont ⟨x, ds2 ++ (entryDir fs en).toList, rest⟩ := by
            rw [step_cons, hr]
          rw [run_succ_cont f1 hs2, h1]
          rfl
        | some fi =>
          have hs : step fs ⟨x, ds1 ++ ds2, en :: rest⟩ =
              .yieldItem (.ok fi)
                ⟨x, (ds1 ++ ds2) ++ (entryDir fs en).toList, rest⟩ := by
            rw [step_cons, hr]
          rw [run_succ_yield f hs] at h
          obtain ⟨⟨is', os'⟩, hrun, heq⟩ := Option.map_eq_some'.mp h
          simp only [hso, List.nil_append] at heq
          injection heq with hi ho
          subst hi; subst ho
          rw [List.append_assoc] at hrun
          obtain ⟨f1, is1, os1, f2, is2, os2, h1, h2, hieq, hoeq⟩ :=
            ih x ds1 (ds2 ++ (entryDir fs en).toList) rest is' os' hrun
          refine ⟨f1 + 1, .ok fi :: is1, os1, f2, is2, os2, ?_, h2, ?_, hoeq⟩
          · have hs2 : step fs ⟨x, ds2, en :: rest⟩ =
                .yieldItem (.ok fi)
                  ⟨x, ds2 ++ (entryDir fs en).toList, rest⟩ := by
              rw [step_cons, hr]
            rw [run_succ_yield f1 hs2, h1]
            rfl
          · rw [hieq]
            rfl
      | error er =>
        have hs : step fs ⟨x, ds1 ++ ds2, en :: rest⟩ =
            .yieldItem (.error er)
              ⟨x, (ds1 ++ ds2) ++ (entryDir fs en).toList, rest⟩ := by
          rw [step_cons, hr]
        rw [run_succ_yield f hs] at h
        obtain ⟨⟨is', os'⟩, hrun, heq⟩ := Option.map_eq_some'.mp h
        simp only [hso, List.nil_append] at heq
        injection heq with hi ho
        subst hi; subst ho
        rw [List.append_assoc] at hrun
        obtain ⟨f1, is1, os1, f2, is2, os2, h1, h2, hieq, hoeq⟩ :=
          ih x ds1 (ds2 ++ (entryDir fs en).toList) rest is' os' hrun
        refine ⟨f1 + 1, .error er :: is1, os1, f2, is2, os2, ?_, h2, ?_, hoeq⟩
        · have hs2 : step fs ⟨x, ds2, en :: rest⟩ =
              .yieldItem (.error er)
                ⟨x, ds2 ++ (entryDir fs en).toList, rest⟩ := by
            rw [step_cons, hr]
          rw [run_succ_yield f1 hs2, h1]
          rfl
        · rw [hieq]
          rfl
    | nil =>
      rcases List.eq_nil_or_concat ds2 with h2 | ⟨ds2', d, hc⟩
      · subst h2
        rw [List.append_nil] at h
        refine ⟨1, [], [], f + 1, is, os, ?_, h, rfl, rfl⟩
        exact run_succ_stop 0 rfl
      · rw [List.concat_eq_append] at hc
        subst hc
        have hassoc : ds1 ++ (ds2' ++ [d]) = (ds1 ++ ds2') ++ [d] :=
          (List.append_assoc ds1 ds2' [d]).symm
        rw [hassoc] at h
        have hso : stepOpened ⟨x, (ds1 ++ ds2') ++ [d], []⟩ = [d] :=
          stepOpened_pop x (ds1 ++ ds2') d
        cases hrd : fs.readDir d with
        | error er =>
          have hs : step fs ⟨x, (ds1 ++ ds2') ++ [d], []⟩ =
              .yieldItem (.error er) ⟨x, ds1 ++ ds2', []⟩ := by
            simp [step, List.getLast?_concat, List.dropLast_concat, hrd]
          rw [run_succ_yield f hs] at h
          obtain ⟨⟨is', os'⟩, hrun, heq⟩ := Option.map_eq_some'.mp h
          simp only [hso] at heq
          injection heq with hi ho
          subst hi; subst ho
          obtain ⟨f1, is1, os1, f2, is2, os2, h1, h2, hieq, hoeq⟩ :=
            ih x ds1 ds2' [] is' os' hrun
          refine ⟨f1 + 1, .error er :: is1, d :: os1, f2, is2, os2,
            ?_, h2, ?_, ?_⟩
          · have hs2 : step fs ⟨x, ds2' ++ [d], []⟩ =
                .yieldItem (.error er) ⟨x, ds2', []⟩ := by
              simp [step, List.getLast?_concat, List.dropLast_concat, hrd]
            rw [run_succ_yield f1 hs2, h1]
            simp [stepOpened_pop]
          · rw [hieq]; rfl
          · rw [hoeq]; rfl
        | ok es =>
          have hs : step fs ⟨x, (ds1 ++ ds2') ++ [d], []⟩ =
              .cont ⟨x, ds1 ++ ds2', mkCursor d es⟩ := by
            simp [step, List.getLast?_concat, List.dropLast_concat, hrd]
          rw [run_succ_cont f hs] at h
          obtain ⟨⟨is', os'⟩, hrun, heq⟩ := Option.map_eq_some'.mp h
          simp only [hso] at heq
          injection heq with hi ho
          subst hi; subst ho
          obtain ⟨f1, is1, os1, f2, is2, os2, h1, h2, hieq, hoeq⟩ :=
            ih x ds1 ds2' (mkCursor d es) is' os' hrun
          refine ⟨f1 + 1, is1, d :: os1, f2, is2, os2, ?_, h2, hieq, ?_⟩
          · have hs2 : step fs ⟨x, ds2' ++ [d], []⟩ =
                .cont ⟨x, ds2', mkCursor d es⟩ := by
              simp [step, List.getLast?_concat, List.dropLast_concat, hrd]
            rw [run_succ_cont f1 hs2, h1]
            simp [stepOpened_pop]
          · rw [hoeq]; rfl

/-- C3: depth-first stack discipline.  (1) A discovered subdirectory is
appended to the end of the pending list; (2) the next directory to open
is popped from the end; (3) everything above a deeper segment of the
stack (the active cursor, the directories above, and all directories
they discover) is exhausted -- its items and its opened directories
form a contiguous leading block -- before any directory queued earlier
(`ds1`) is opened. -/
theorem c3_depth_first_stack (fs : Fs) :
    (∀ (t : FileTraverser) (en : DirEntry),
      fs.fileType en.path = .ok .dir →
      map_entry fs t (.ok en) =
        ({ t with sub_dirs := t.sub_dirs ++ [en.path] }, .ok none)) ∧
    (∀ (x : Option (List String)) (ds : List Path) (d : Path)
        (es : List (Except Nat String)), fs.readDir d = .ok es →
      step fs ⟨x, ds ++ [d], []⟩ = .cont ⟨x, ds, mkCursor d es⟩) ∧
    (∀ (fuel : Nat) (x : Option (List String)) (ds1 ds2 : List Path)
      (cur : List (Except Nat DirEntry)) (is : List (Except Nat FileInfo))
      (os : List Path),
      run fs fuel ⟨x, ds1 ++ ds2, cur⟩ = some (is, os) →
      ∃ f1 is1 os1 f2 is2 os2,
        run fs f1 ⟨x, ds2, cur⟩ = some (is1, os1) ∧
        run fs f2 ⟨x, ds1, []⟩ = some (is2, os2) ∧
        is = is1 ++ is2 ∧ os = os1 ++ os2) := by
  refine ⟨?_, ?_, run_frame⟩
  · intro t en h
    simp [map_entry, h]
  · intro x ds d es h
    simp [step, List.getLast?_concat, List.dropLast_concat, h]

/-- C3 witness: in the concrete tree, a directory entry is pushed at
the end, a pending directory is popped from the end, and a run from the
two-element stack decomposes into the run above the older directory
followed by the run of the older directory. -/
theorem c3_witness :
    map_entry fsW ⟨none, [["q"]], []⟩ (.ok ⟨["r", "sub"], "sub"⟩) =
      (⟨none, [["q"]] ++ [["r", "sub"]], []⟩, .ok none) ∧
    step fsW ⟨none, [["q"]] ++ [["r", "sub"]], []⟩ =
      .cont ⟨none, [["q"]], mkCursor ["r", "sub"] [.ok "c.rs"]⟩ ∧
    (∃ f1 is1 os1 f2 is2 os2,
      run fsW f1 ⟨none, [["r", "sub"]], []⟩ = some (is1, os1) ∧
      run fsW f2 ⟨none, [["q"]], []⟩ = some (is2, os2) ∧
      [Except.ok (FileInfo.new [Event.byte 99] ["r", "sub", "c.rs"]),
        Except.error 7] = is1 ++ is2 ∧
      ([["r", "sub"], ["q"]] : List Path) = os1 ++ os2) :=
  ⟨(c3_depth_first_stack fsW).1 ⟨none, [["q"]], []⟩ ⟨["r", "sub"], "sub"⟩ rfl,
    (c3_depth_first_stack fsW).2.1 none [["q"]] ["r", "sub"] [.ok "c.rs"] rfl,
    (c3_depth_first_stack fsW).2.2 10 none [["q"]] [["r", "sub"]] []
      [Except.ok (FileInfo.new [Event.byte 99] ["r", "sub", "c.rs"]),
        Except.error 7]
      [["r", "sub"], ["q"]] (by decide)⟩

/-! ## What the classification of one entry produces -/

theorem entryRes_ok_some {fs : Fs} {x : Option (List String)}
    {e : Except Nat DirEntry} {fi : FileInfo}
    (h : entryRes fs x e = .ok (some fi)) :
    ∃ en, e = .ok en ∧ fi.path = en.path ∧
      fs.fileType en.path = .ok .file ∧ passesFilter x en = true ∧
      fs.openFile en.path = .ok fi.file := by
  cases e with
  | error er => simp [entryRes] at h
  | ok en =>
    cases hft : fs.fileType en.path with
    | error er => simp [entryRes, hft] at h
    | ok ft =>
      cases ft with
      | file =>
        by_cases hpf : passesFilter x en
        · cases hop : fs.openFile en.path with
          | error er => simp [entryRes, hft, hpf, hop, Except.map] at h
          | ok c =>
            simp only [entryRes, hft, hpf, if_true, hop, Except.map] at h
            injection h with h'
            injection h' with h''
            subst h''
            exact ⟨en, rfl, rfl, hft, hpf, hop⟩
        · simp [entryRes, hft, hpf] at h
      | dir => simp [entryRes, hft] at h
      | other => simp [entryRes, hft] at h

theorem mkCursor_ok_mem {d : Path} {es : List (Except Nat String)}
    {en : DirEntry} :
    Except.ok en ∈ mkCursor d es ↔
      ∃ n, en = ⟨d ++ [n], n⟩ ∧ Except.ok n ∈ es := by
  constructor
  · intro h
    obtain ⟨a, ha, hfa⟩ := List.mem_map.mp h
    cases a with
    | error er => simp [Except.map] at hfa
    | ok n =>
      refine ⟨n, ?_, ha⟩
      simp only [Except.map] at hfa
      injection hfa with h'
      exact h'.symm
  · rintro ⟨n, rfl, hn⟩
    exact List.mem_map.mpr ⟨.ok n, hn, rfl⟩

/-- Soundness of the yielded files: every successfully yielded file
comes from an `Ok` entry of the initial cursor or of an opened
directory, has file type `file`, passes the filter, and carries the
content `File::open` returned for its path. -/
theorem run_sound {fs : Fs} :
    ∀ (fuel : Nat) (x : Option (List String)) (ds : List Path)
      (cur : List (Except Nat DirEntry)) (is : List (Except Nat FileInfo))
      (os : List Path),
      run fs fuel ⟨x, ds, cur⟩ = some (is, os) →
      ∀ fi, Except.ok fi ∈ is →
        (∃ en, Except.ok en ∈ cur ∧ fi.path = en.path ∧
          fs.fileType en.path = .ok .file ∧ passesFilter x en = true ∧
          fs.openFile en.path = .ok fi.file) ∨
        (∃ d es n, d ∈ os ∧ fs.readDir d = .ok es ∧ Except.ok n ∈ es ∧
          fi.path = d ++ [n] ∧ fs.fileType fi.path = .ok .file ∧
          passesFilter x ⟨fi.path, n⟩ = true ∧
          fs.openFile fi.path = .ok fi.file) := by
  intro fuel
  induction fuel with
  | zero => intro x ds cur is os h; cases h
  | succ f ih =>
    intro x ds cur is os h fi hfi
    cases cur with
    | cons en0 rest =>
      have hso : stepOpened ⟨x, ds, en0 :: rest⟩ = [] := rfl
      cases hr : entryRes fs x en0 with
      | ok oi =>
        cases oi with
        | none =>
          have hs := step_cons fs x ds en0 rest
          rw [hr] at hs
          rw [run_succ_cont f hs] at h
          obtain ⟨⟨is', os'⟩, hrun, heq⟩ := Option.map_eq_some'.mp h
          simp only [hso, List.nil_append] at heq
          injection heq with hi ho; subst hi; subst ho
          rcases ih x _ rest is' os' hrun fi hfi with ⟨en, hen, hrest⟩ | hsec
          · exact Or.inl ⟨en, List.mem_cons_of_mem _ hen, hrest⟩
          · exact Or.inr hsec
        | some fi0 =>
          have hs := step_cons fs x ds en0 rest
          rw [hr] at hs
          rw [run_succ_yield f hs] at h
          obtain ⟨⟨is', os'⟩, hrun, heq⟩ := Option.map_eq_some'.mp h
          simp only [hso, List.nil_append] at heq
          injection heq with hi ho; subst hi; subst ho
          rcases List.mem_cons.mp hfi with heq0 | hmem
          · injection heq0 with heq0'
            subst heq0'
            obtain ⟨en, he0, hrest⟩ := entryRes_ok_some hr
            subst he0
            exact Or.inl ⟨en, List.mem_cons_self _ _, hrest⟩
          · rcases ih x _ rest is' os' hrun fi hmem with ⟨en, hen, hrest⟩ | hsec
            · exact Or.inl ⟨en, List.mem_cons_of_mem _ hen, hrest⟩
            · exact Or.inr hsec
      | error er =>
        have hs := step_cons fs x ds en0 rest
        rw [hr] at hs
        rw [run_succ_yield f hs] at h
        obtain ⟨⟨is', os'⟩, hrun, heq⟩ := Option.map_eq_some'.mp h
        simp only [hso, List.nil_append] at heq
        injection heq with hi ho; subst hi; subst ho
        rcases List.mem_cons.mp hfi with heq0 | hmem
        · cases heq0
        · rcases ih x _ rest is' os' hrun fi hmem with ⟨en, hen, hrest⟩ | hsec
          · exact Or.inl ⟨en, List.mem_cons_of_mem _ hen, hrest⟩
          · exact Or.inr hsec
    | nil =>
      rcases List.eq_nil_or_concat ds with rfl | ⟨ds', d, hc⟩
      · have hs : step fs (⟨x, [], []⟩ : FileTraverser) = .stop := rfl
        rw [run_succ_stop f hs] at h
        injection h with h'
        injection h' with hi ho
        subst hi
        cases hfi
      · rw [List.concat_eq_append] at hc; subst hc
        have hso := stepOpened_pop x ds' d
        cases hrd : fs.readDir d with
        | error er =>
          have hs : step fs ⟨x, ds' ++ [d], []⟩ =
              .yieldItem (.error er) ⟨x, ds', []⟩ := by
            simp [step, List.getLast?_concat, List.dropLast_concat, hrd]
          rw [run_succ_yield f hs] at h
          obtain ⟨⟨is', os'⟩, hrun, heq⟩ := Option.map_eq_some'.mp h
          simp only [hso] at heq
          injection heq with hi ho; subst hi; subst ho
          rcases List.mem_cons.mp hfi with heq0 | hmem
          · cases heq0
          · rcases ih x ds' [] is' os' hrun fi hmem with ⟨en, hen, _⟩ | hsec
            · cases hen
            · obtain ⟨d', es, n, hd', hrest⟩ := hsec
              exact Or.inr ⟨d', es, n, List.mem_cons_of_mem _ hd', hrest⟩
        | ok es0 =>
          have hs : step fs ⟨x, ds' ++ [d], []⟩ =
              .cont ⟨x, ds', mkCursor d es0⟩ := by
            simp [step, List.getLast?_concat, List.dropLast_concat, hrd]
          rw [run_succ_cont f hs] at h
          obtain ⟨⟨is', os'⟩, hrun, heq⟩ := Option.map_eq_some'.mp h
          simp only [hso] at heq
          injection heq with hi ho; subst hi; subst ho
          rcases ih x ds' (mkCursor d es0) is' os' hrun fi hfi with
            ⟨en, hen, hpath, hft, hpf, hop⟩ | hsec
          · obtain ⟨n, rfl, hn⟩ := mkCursor_ok_mem.mp hen
            refine Or.inr ⟨d, es0, n, List.mem_cons_self _ _, hrd, hn,
              hpath, ?_, ?_, ?_⟩
            · rw [hpath]; exact hft
            · rw [hpath]; exact hpf
            · rw [hpath]; exact hop
          · obtain ⟨d', es, n, hd', hrest⟩ := hsec
            exact Or.inr ⟨d', es, n, List.mem_cons_of_mem _ hd', hrest⟩

/-- Completeness of the yielded files: every `Ok` entry of the initial
cursor, and of every opened directory, that is a regular file passing
the filter and that opens successfully, is yielded. -/
theorem run_complete {fs : Fs} :
    ∀ (fuel : Nat) (x : Option (List String)) (ds : List Path)
      (cur : List (Except Nat DirEntry)) (is : List (Except Nat FileInfo))
      (os : List Path),
      run fs fuel ⟨x, ds, cur⟩ = some (is, os) →
      (∀ en c, Except.ok en ∈ cur → fs.fileType en.path = .ok .file →
        passesFilter x en = true → fs.openFile en.path = .ok c →
        Except.ok (FileInfo.new c en.path) ∈ is) ∧
      (∀ d es n c, d ∈ os → fs.readDir d = .ok es → Except.ok n ∈ es →
        fs.fileType (d ++ [n]) = .ok .file →
        passesFilter x ⟨d ++ [n], n⟩ = true →
        fs.openFile (d ++ [n]) = .ok c →
        Except.ok (FileInfo.new c (d ++ [n])) ∈ is) := by
  intro fuel
  induction fuel with
  | zero => intro x ds cur is os h; cases h
  | succ f ih =>
    intro x ds cur is os h
    cases cur with
    | cons en0 rest =>
      have hso : stepOpened ⟨x, ds, en0 :: rest⟩ = [] := rfl
      cases hr : entryRes fs x en0 with
      | ok oi =>
        cases oi with
        | none =>
          have hs := step_cons fs x ds en0 rest
          rw [hr] at hs
          rw [run_succ_cont f hs] at h
          obtain ⟨⟨is', os'⟩, hrun, heq⟩ := Option.map_eq_some'.mp h
          simp only [hso, List.nil_append] at heq
          injection heq with hi ho; subst hi; subst ho
          obtain ⟨ih1, ih2⟩ := ih x _ rest is' os' hrun
          refine ⟨?_, ih2⟩
          intro en c hen hft hpf hop
          rcases List.mem_cons.mp hen with heq0 | hmem
          · subst heq0
            simp [entryRes, hft, hpf, hop, Except.map] at hr
          · exact ih1 en c hmem hft hpf hop
        | some fi0 =>
          have hs := step_cons fs x ds en0 rest
          rw [hr] at hs
          rw [run_succ_yield f hs] at h
          obtain ⟨⟨is', os'⟩, hrun, heq⟩ := Option.map_eq_some'.mp h
          simp only [hso, List.nil_append] at heq
          injection heq with hi ho; subst hi; subst ho
          obtain ⟨ih1, ih2⟩ := ih x _ rest is' os' hrun
          constructor
          · intro en c hen hft hpf hop
            rcases List.mem_cons.mp hen with heq0 | hmem
            · subst heq0
              simp only [entryRes, hft, hpf, if_true, hop, Except.map] at hr
              injection hr with hr'
              injection hr' with hr''
              rw [← hr'']
              exact List.mem_cons_self _ _
            · exact List.mem_cons_of_mem _ (ih1 en c hmem hft hpf hop)
          · intro d es n c hd hrd hn hft hpf hop
            exact List.mem_cons_of_mem _ (ih2 d es n c hd hrd hn hft hpf hop)
      | error er =>
        have hs := step_cons fs x ds en0 rest
        rw [hr] at hs
        rw [run_succ_yield f hs] at h
        obtain ⟨⟨is', os'⟩, hrun, heq⟩ := Option.map_eq_some'.mp h
        simp only [hso, List.nil_append] at heq
        injection heq with hi ho; subst hi; subst ho
        obtain ⟨ih1, ih2⟩ := ih x _ rest is' os' hrun
        constructor
        · intro en c hen hft hpf hop
          rcases List.mem_cons.mp hen with heq0 | hmem
          · subst heq0
            simp [entryRes, hft, hpf, hop, Except.map] at hr
          · exact List.mem_cons_of_mem _ (ih1 en c hmem hft hpf hop)
        · intro d es n c hd hrd hn hft hpf hop
          exact List.mem_cons_of_mem _ (ih2 d es n c hd hrd hn hft hpf hop)
    | nil =>
      rcases List.eq_nil_or_concat ds with rfl | ⟨ds', d0, hc⟩
      · have hs : step fs (⟨x, [], []⟩ : FileTraverser) = .stop := rfl
        rw [run_succ_stop f hs] at h
        injection h with h'
        injection h' with hi ho
        subst hi; subst ho
        exact ⟨fun en c hen _ _ _ => absurd hen (List.not_mem_nil _),
          fun d es n c hd _ _ _ _ _ => absurd hd (List.not_mem_nil _)⟩
      · rw [List.concat_eq_append] at hc; subst hc
        have hso := stepOpened_pop x ds' d0
        cases hrd : fs.readDir d0 with
        | error er =>
          have hs : step fs ⟨x, ds' ++ [d0], []⟩ =
              .yieldItem (.error er) ⟨x, ds', []⟩ := by
            simp [step, List.getLast?_concat, List.dropLast_concat, hrd]
          rw [run_succ_yield f hs] at h
          obtain ⟨⟨is', os'⟩, hrun, heq⟩ := Option.map_eq_some'.mp h
          simp only [hso] at heq
          injection heq with hi ho; subst hi; subst ho
          obtain ⟨_, ih2⟩ := ih x ds' [] is' os' hrun
          constructor
          · intro en c hen _ _ _
            exact absurd hen (List.not_mem_nil _)
          · intro d es n c hd hrd' hn hft hpf hop
            rcases List.mem_cons.mp hd with rfl | hmem
            · rw [hrd] at hrd'; cases hrd'
            · exact List.mem_cons_of_mem _
                (ih2 d es n c hmem hrd' hn hft hpf hop)
        | ok es0 =>
          have hs : step fs ⟨x, ds' ++ [d0], []⟩ =
              .cont ⟨x, ds', mkCursor d0 es0⟩ := by
            simp [step, List.getLast?_concat, List.dropLast_concat, hrd]
          rw [run_succ_cont f hs] at h
          obtain ⟨⟨is', os'⟩, hrun, heq⟩ := Option.map_eq_some'.mp h
          simp only [hso] at heq
          injection heq with hi ho; subst hi; subst ho
          obtain ⟨ih1, ih2⟩ := ih x ds' (mkCursor d0 es0) is' os' hrun
          constructor
          · intro en c hen _ _ _
            exact absurd hen (List.not_mem_nil _)
          · intro d es n c hd hrd' hn hft hpf hop
            rcases List.mem_cons.mp hd with rfl | hmem
            · rw [hrd] at hrd'
              injection hrd' with hes
              subst hes
              exact ih1 ⟨d ++ [n], n⟩ c
                (mkCursor_ok_mem.mpr ⟨n, rfl, hn⟩) hft hpf hop
            · exact ih2 d es n c hmem hrd' hn hft hpf hop

theorem traverse_ok {fs : Fs} {x : Option (List String)} {r : Path}
    {rest : List Path} {t : FileTraverser}
    (h : traverse fs (r :: rest) x = .ok t) :
    ∃ es, fs.readDir r = .ok es ∧ t = ⟨x, rest, mkCursor r es⟩ := by
  simp only [traverse] at h
  cases hr : fs.readDir r <;> rw [hr] at h
  · cases h
  · injection h with h'
    exact ⟨_, rfl, h'.symm⟩

/-- C2: the traverser yields exactly the directory entries that are
regular files passing the (possibly absent) extension filter.
Per entry: an entry that is neither a regular file nor a directory
produces nothing and pushes nothing; a regular-file entry is opened and
yielded iff it passes the filter (`passesFilter none` is always true).
Per tree: in a completed run from a constructed traverser, every
yielded file is a filter-passing regular-file entry of a visited
directory (soundness), and every filter-passing regular-file entry of
the first root or of any opened directory that opens successfully is
yielded (completeness). -/
theorem c2_yields_exactly_matching_files (fs : Fs) :
    (∀ (t : FileTraverser) (en : DirEntry),
      fs.fileType en.path = .ok .other →
      map_entry fs t (.ok en) = (t, .ok none)) ∧
    (∀ (t : FileTraverser) (en : DirEntry),
      fs.fileType en.path = .ok .file →
      map_entry fs t (.ok en) =
        (t, if passesFilter t.extensions en then
              (fs.openFile en.path).map (fun f => some (FileInfo.new f en.path))
            else .ok none)) ∧
    (∀ (x : Option (List String)) (r : Path) (rest : List Path)
        (t : FileTraverser) (fuel : Nat) (is : List (Except Nat FileInfo))
        (os : List Path),
      traverse fs (r :: rest) x = .ok t →
      run fs fuel t = some (is, os) →
      (∀ fi, Except.ok fi ∈ is →
        ∃ d n, fi.path = d ++ [n] ∧ fs.fileType fi.path = .ok .file ∧
          passesFilter x ⟨fi.path, n⟩ = true ∧
          fs.openFile fi.path = .ok fi.file) ∧
      (∀ d es n c, (d = r ∨ d ∈ os) → fs.readDir d = .ok es →
        Except.ok n ∈ es → fs.fileType (d ++ [n]) = .ok .file →
        passesFilter x ⟨d ++ [n], n⟩ = true →
        fs.openFile (d ++ [n]) = .ok c →
        Except.ok (FileInfo.new c (d ++ [n])) ∈ is)) := by
  refine ⟨?_, ?_, ?_⟩
  · intro t en h
    simp [map_entry, h]
  · intro t en h
    obtain ⟨tx, tds, tcur⟩ := t
    cases tx with
    | none => simp [map_entry, h, passesFilter]
    | some exts =>
      by_cases hh : has_ext en exts <;>
        simp [map_entry, h, passesFilter, hh]
  · intro x r rest t fuel is os htrav hrun
    obtain ⟨es0, hrd0, rfl⟩ := traverse_ok htrav
    constructor
    · intro fi hfi
      rcases run_sound fuel x rest (mkCursor r es0) is os hrun fi hfi with
        ⟨en, hen, hpath, hft, hpf, hop⟩ | ⟨d, es, n, _, _, _, hpath, hft, hpf, hop⟩
      · obtain ⟨n, rfl, _⟩ := mkCursor_ok_mem.mp hen
        refine ⟨r, n, hpath, ?_, ?_, ?_⟩
        · rw [hpath]; exact hft
        · rw [hpath]; exact hpf
        · rw [hpath]; exact hop
      · exact ⟨d, n, hpath, hft, hpf, hop⟩
    · intro d es n c hd hrd hn hft hpf hop
      obtain ⟨hc1, hc2⟩ := run_complete fuel x rest (mkCursor r es0) is os hrun
      rcases hd with rfl | hmem
      · rw [hrd0] at hrd
        injection hrd with hes
        subst hes
        exact hc1 ⟨d ++ [n], n⟩ c (mkCursor_ok_mem.mpr ⟨n, rfl, hn⟩) hft hpf hop
      · exact hc2 d es n c hmem hrd hn hft hpf hop

/-- C2 witness: in the concrete tree with filter `.rs`, a symlink entry
produces nothing and pushes nothing, a regular `.rs` entry is opened
and yielded, and the completed run satisfies the soundness and
completeness characterization. -/
theorem c2_witness :
    map_entry fsW ⟨none, [], []⟩ (.ok ⟨["r", "link"], "link"⟩) =
      (⟨none, [], []⟩, .ok none) ∧
    map_entry fsW ⟨some [".rs"], [], []⟩ (.ok ⟨["r", "a.rs"], "a.rs"⟩) =
      (⟨some [".rs"], [], []⟩,
        if passesFilter (some [".rs"]) ⟨["r", "a.rs"], "a.rs"⟩ then
          (fsW.openFile ["r", "a.rs"]).map
            (fun f => some (FileInfo.new f ["r", "a.rs"]))
        else .ok none) ∧
    ((∀ fi, Except.ok fi ∈
        ([Except.ok (FileInfo.new [Event.byte 10] ["r", "a.rs"]),
          Except.ok (FileInfo.new [Event.byte 99] ["r", "sub", "c.rs"])] :
            List (Except Nat FileInfo)) →
      ∃ d n, fi.path = d ++ [n] ∧ fsW.fileType fi.path = .ok .file ∧
        passesFilter (some [".rs"]) ⟨fi.path, n⟩ = true ∧
        fsW.openFile fi.path = .ok fi.file) ∧
    (∀ d es n c, (d = ["r"] ∨ d ∈ ([[ "r", "sub"]] : List Path)) →
      fsW.readDir d = .ok es → Except.ok n ∈ es →
      fsW.fileType (d ++ [n]) = .ok .file →
      passesFilter (some [".rs"]) ⟨d ++ [n], n⟩ = true →
      fsW.openFile (d ++ [n]) = .ok c →
      Except.ok (FileInfo.new c (d ++ [n])) ∈
        ([Except.ok (FileInfo.new [Event.byte 10] ["r", "a.rs"]),
          Except.ok (FileInfo.new [Event.byte 99] ["r", "sub", "c.rs"])] :
            List (Except Nat FileInfo)))) :=
  ⟨(c2_yields_exactly_matching_files fsW).1 ⟨none, [], []⟩
      ⟨["r", "link"], "link"⟩ rfl,
    (c2_yields_exactly_matching_files fsW).2.1 ⟨some [".rs"], [], []⟩
      ⟨["r", "a.rs"], "a.rs"⟩ rfl,
    (c2_yields_exactly_matching_files fsW).2.2 (some [".rs"]) ["r"] []
      ⟨some [".rs"], [],
        mkCursor ["r"] [.ok "a.rs", .ok "sub", .ok "b.md", .ok "link"]⟩
      10
      [Except.ok (FileInfo.new [Event.byte 10] ["r", "a.rs"]),
        Except.ok (FileInfo.new [Event.byte 99] ["r", "sub", "c.rs"])]
      [["r", "sub"]] (by decide) (by decide)⟩

/-! ## Prefix-order lemmas on paths -/

theorem below_iff {q p : Path} : below q p ↔ ∃ s, q ++ s = p := by
  constructor
  · intro h
    refine ⟨p.drop q.length, ?_⟩
    have h2 := List.take_append_drop q.length p
    rw [h] at h2
    exact h2
  · rintro ⟨s, rfl⟩
    exact List.take_left q s

theorem below_refl (p : Path) : below p p := List.take_length p

theorem below_length {q p : Path} (h : below q p) : q.length ≤ p.length := by
  obtain ⟨s, rfl⟩ := below_iff.mp h
  simp

theorem below_append (q s : Path) : below q (q ++ s) :=
  below_iff.mpr ⟨s, rfl⟩

theorem below_trans {a b c : Path} (h1 : below a b) (h2 : below b c) :
    below a c := by
  obtain ⟨s, rfl⟩ := below_iff.mp h1
  obtain ⟨u, rfl⟩ := below_iff.mp h2
  exact below_iff.mpr ⟨s ++ u, by rw [List.append_assoc]⟩

theorem below_eq_of_length {q p : Path} (h : below q p)
    (hl : p.length ≤ q.length) : q = p := by
  obtain ⟨s, rfl⟩ := below_iff.mp h
  have : s = [] := by
    have := List.length_append q s
    exact List.length_eq_zero.mp (by omega)
  rw [this, List.append_nil]

theorem below_snoc {q d : Path} {n : String} :
    below q (d ++ [n]) ↔ below q d ∨ q = d ++ [n] := by
  constructor
  · intro h
    obtain ⟨s, hs⟩ := below_iff.mp h
    rcases List.eq_nil_or_concat s with rfl | ⟨s', m, rfl⟩
    · right
      rw [← hs, List.append_nil]
    · left
      rw [List.concat_eq_append, ← List.append_assoc] at hs
      obtain ⟨h1, _⟩ := List.append_inj' hs rfl
      exact below_iff.mpr ⟨s', h1⟩
  · rintro (h | rfl)
    · exact below_trans h (below_append d [n])
    · exact below_refl _

theorem below_snoc_self (d : Path) (n : String) : below d (d ++ [n]) :=
  below_append d [n]

theorem not_below_snoc_left {d : Path} {n : String} :
    ¬ below (d ++ [n]) d := by
  intro h
  have := below_length h
  simp at this

/-! ## Cursor path lemmas -/

theorem okPaths_mkCursor (d : Path) (es : List (Except Nat String)) :
    okPaths (mkCursor d es) = (okNames es).map (fun n => d ++ [n]) := by
  induction es with
  | nil => rfl
  | cons e es ih =>
    cases e with
    | error er => simpa [mkCursor, okPaths, okNames, Except.map] using ih
    | ok n => simpa [mkCursor, okPaths, okNames, Except.map] using ih

theorem entryDir_some {fs : Fs} {e : Except Nat DirEntry} {p : Path}
    (h : entryDir fs e = some p) :
    ∃ en, e = .ok en ∧ en.path = p ∧ fs.fileType p = .ok .dir := by
  cases e with
  | error er => simp [entryDir] at h
  | ok en =>
    refine ⟨en, rfl, ?_⟩
    cases hft : fs.fileType en.path with
    | error er => simp [entryDir, hft] at h
    | ok ft =>
      cases ft with
      | file => simp [entryDir, hft] at h
      | dir =>
        simp only [entryDir, hft] at h
        injection h with h'
        subst h'
        exact ⟨rfl, hft⟩
      | other => simp [entryDir, hft] at h

theorem entryDir_none_of_file {fs : Fs} {en : DirEntry}
    (hft : fs.fileType en.path = .ok .file) :
    entryDir fs (.ok en) = none := by
  simp [entryDir, hft]

theorem okPaths_cons_ok (en : DirEntry)
    (rest : List (Except Nat DirEntry)) :
    okPaths (.ok en :: rest) = en.path :: okPaths rest := rfl

theorem okPaths_cons_error (er : Nat)
    (rest : List (Except Nat DirEntry)) :
    okPaths (.error er :: rest) = okPaths rest := rfl

/-! ## Termination of the traversal on finite trees -/

theorem subW_high {fs : Fs} {N : Nat} (hfin : FiniteFs fs N) :
    ∀ (g : Nat) (d : Path), N ≤ d.length → subW fs g d = 0 := by
  intro g d hd
  cases g with
  | zero => rfl
  | succ g =>
    cases hrd : fs.readDir d with
    | error er => simp [subW, hrd]
    | ok es =>
      have : es = [] := hfin d hd es hrd
      subst this
      simp [subW, hrd, mkCursor]

theorem mkCursor_entryDir_length {fs : Fs} {d : Path}
    {es : List (Except Nat String)} {e : Except Nat DirEntry} {p : Path}
    (he : e ∈ mkCursor d es) (hp : entryDir fs e = some p) :
    p.length = d.length + 1 := by
  obtain ⟨en, rfl, hpath, _⟩ := entryDir_some hp
  obtain ⟨n, rfl, _⟩ := mkCursor_ok_mem.mp he
  rw [← hpath]
  simp

theorem subW_stable {fs : Fs} {N : Nat} (hfin : FiniteFs fs N) :
    ∀ (g1 g2 : Nat) (d : Path), N ≤ g1 + d.length → N ≤ g2 + d.length →
      subW fs g1 d = subW fs g2 d := by
  intro g1
  induction g1 with
  | zero =>
    intro g2 d h1 _
    rw [subW_high hfin 0 d (by omega), subW_high hfin g2 d (by omega)]
  | succ g ih =>
    intro g2 d h1 h2
    cases g2 with
    | zero =>
      rw [subW_high hfin (g + 1) d (by omega),
        subW_high hfin 0 d (by omega)]
    | succ g' =>
      cases hrd : fs.readDir d with
      | error er => simp [subW, hrd]
      | ok es =>
        simp only [subW, hrd]
        congr 1
        apply List.map_congr_left
        intro e he
        show entryW fs g e = entryW fs g' e
        unfold entryW entryWgo
        cases hd : entryDir fs e with
        | none => rfl
        | some p =>
          have hlen := mkCursor_entryDir_length he hd
          have := ih g' p (by omega) (by omega)
          simp [this]

theorem pot_entry_step (fs : Fs) (g : Nat) (x : Option (List String))
    (ds : List Path) (en : Except Nat DirEntry)
    (rest : List (Except Nat DirEntry)) :
    pot fs g ⟨x, ds ++ (entryDir fs en).toList, rest⟩ <
      pot fs g ⟨x, ds, en :: rest⟩ := by
  cases hd : entryDir fs en with
  | none =>
    have he : entryW fs g en = 1 := by
      unfold entryW entryWgo
      rw [hd]
      rfl
    simp only [pot, hd, Option.toList_none, List.append_nil,
      List.map_cons, List.sum_cons, he]
    omega
  | some p =>
    have he : entryW fs g en = 1 + (1 + subW fs g p) := by
      unfold entryW entryWgo
      rw [hd]
    simp only [pot, hd, Option.toList_some, List.map_append,
      List.sum_append, List.map_cons, List.sum_cons, List.map_nil,
      List.sum_nil, he]
    omega

theorem pot_pop_error (fs : Fs) (g : Nat) (x : Option (List String))
    (ds' : List Path) (d : Path) :
    pot fs g ⟨x, ds', []⟩ < pot fs g ⟨x, ds' ++ [d], []⟩ := by
  simp only [pot, List.map_nil, List.sum_nil, List.map_append,
    List.sum_append, List.map_cons, List.sum_cons]
  omega

theorem pot_pop_ok {fs : Fs} {N : Nat} (hfin : FiniteFs fs N)
    (x : Option (List String)) (ds' : List Path) {d : Path}
    {es : List (Except Nat String)} (h : fs.readDir d = .ok es) :
    pot fs N ⟨x, ds', mkCursor d es⟩ < pot fs N ⟨x, ds' ++ [d], []⟩ := by
  have hkey : ((mkCursor d es).map (entryW fs N)).sum ≤ subW fs N d := by
    cases N with
    | zero =>
      have : es = [] := hfin d (by omega) es h
      subst this
      simp [mkCursor]
    | succ g =>
      have heq : ((mkCursor d es).map (entryW fs (g + 1))).sum =
          ((mkCursor d es).map (entryW fs g)).sum := by
        congr 1
        apply List.map_congr_left
        intro e he
        unfold entryW entryWgo
        cases hd : entryDir fs e with
        | none => rfl
        | some p =>
          have hlen := mkCursor_entryDir_length he hd
          have := subW_stable hfin (g + 1) g p (by omega) (by omega)
          simp [this]
      rw [heq]
      simp [subW, h, entryW]
  simp only [pot, List.map_nil, List.sum_nil, List.map_append,
    List.sum_append, List.map_cons, List.sum_cons]
  omega

theorem pot_decreases {fs : Fs} {N : Nat} (hfin : FiniteFs fs N)
    {t t' : FileTraverser} :
    (∃ i, step fs t = .yieldItem i t') ∨ step fs t = .cont t' →
    pot fs N t' < pot fs N t := by
  intro hstep
  obtain ⟨x, ds, cur⟩ := t
  cases cur with
  | cons en rest =>
    have hs := step_cons fs x ds en rest
    have ht' : t' = ⟨x, ds ++ (entryDir fs en).toList, rest⟩ := by
      rcases hstep with ⟨i, hy⟩ | hc
      · rw [hs] at hy
        cases hr : entryRes fs x en with
        | ok oi =>
          cases oi with
          | none => rw [hr] at hy; cases hy
          | some fi => rw [hr] at hy; injection hy with _ h2; exact h2.symm
        | error er => rw [hr] at hy; injection hy with _ h2; exact h2.symm
      · rw [hs] at hc
        cases hr : entryRes fs x en with
        | ok oi =>
          cases oi with
          | none => rw [hr] at hc; injection hc with h2; exact h2.symm
          | some fi => rw [hr] at hc; cases hc
        | error er => rw [hr] at hc; cases hc
    rw [ht']
    exact pot_entry_step fs N x ds en rest
  | nil =>
    rcases List.eq_nil_or_concat ds with rfl | ⟨ds', d, hc⟩
    · exfalso
      have hs : step fs (⟨x, [], []⟩ : FileTraverser) = .stop := rfl
      rcases hstep with ⟨i, hy⟩ | hc
      · rw [hs] at hy; cases hy
      · rw [hs] at hc; cases hc
    · rw [List.concat_eq_append] at hc
      subst hc
      cases hrd : fs.readDir d with
      | error er =>
        have hs : step fs ⟨x, ds' ++ [d], []⟩ =
            .yieldItem (.error er) ⟨x, ds', []⟩ := by
          simp [step, List.getLast?_concat, List.dropLast_concat, hrd]
        have ht' : t' = ⟨x, ds', []⟩ := by
          rcases hstep with ⟨i, hy⟩ | hc
          · rw [hs] at hy; injection hy with _ h2; exact h2.symm
          · rw [hs] at hc; cases hc
        rw [ht']
        exact pot_pop_error fs N x ds' d
      | ok es =>
        have hs : step fs ⟨x, ds' ++ [d], []⟩ =
            .cont ⟨x, ds', mkCursor d es⟩ := by
          simp [step, List.getLast?_concat, List.dropLast_concat, hrd]
        have ht' : t' = ⟨x, ds', mkCursor d es⟩ := by
          rcases hstep with ⟨i, hy⟩ | hc
          · rw [hs] at hy; cases hy
          · rw [hs] at hc; injection hc with h2; exact h2.symm
        rw [ht']
        exact pot_pop_ok hfin x ds' hrd

/-- On a finite directory tree the traversal terminates: some fuel
suffices for `run` to return. -/
theorem run_total {fs : Fs} {N : Nat} (hfin : FiniteFs fs N)
    (t : FileTraverser) :
    ∃ fuel r, run fs fuel t = some r := by
  suffices H : ∀ (k : Nat) (t : FileTraverser), pot fs N t ≤ k →
      ∃ fuel r, run fs fuel t = some r from
    H (pot fs N t) t (le_refl _)
  intro k
  induction k with
  | zero =>
    intro t hp
    cases hs : step fs t with
    | stop => exact ⟨1, ([], []), run_succ_stop 0 hs⟩
    | yieldItem i t' =>
      exact absurd (pot_decreases hfin (Or.inl ⟨i, hs⟩)) (by omega)
    | cont t' =>
      exact absurd (pot_decreases hfin (Or.inr hs)) (by omega)
  | succ k ih =>
    intro t hp
    cases hs : step fs t with
    | stop => exact ⟨1, ([], []), run_succ_stop 0 hs⟩
    | yieldItem i t' =>
      have hlt := pot_decreases hfin (Or.inl ⟨i, hs⟩)
      obtain ⟨fuel, ⟨is, os⟩, hr⟩ := ih t' (by omega)
      refine ⟨fuel + 1, (i :: is, stepOpened t ++ os), ?_⟩
      rw [run_succ_yield fuel hs, hr]
      rfl
    | cont t' =>
      have hlt := pot_decreases hfin (Or.inr hs)
      obtain ⟨fuel, ⟨is, os⟩, hr⟩ := ih t' (by omega)
      refine ⟨fuel + 1, (is, stepOpened t ++ os), ?_⟩
      rw [run_succ_cont fuel hs, hr]
      rfl

/-! ## Preservation of state well-formedness -/

theorem okPaths_subset_cons {q : Path} (en : Except Nat DirEntry)
    {rest : List (Except Nat DirEntry)} (h : q ∈ okPaths rest) :
    q ∈ okPaths (en :: rest) := by
  cases en with
  | ok en' => exact List.mem_cons_of_mem _ h
  | error er => exact h

theorem stWF_entry {fs : Fs} {x : Option (List String)} {ds : List Path}
    {en : Except Nat DirEntry} {rest : List (Except Nat DirEntry)}
    (h : StWF fs ⟨x, ds, en :: rest⟩) :
    StWF fs ⟨x, ds ++ (entryDir fs en).toList, rest⟩ := by
  obtain ⟨subPW, curPW, crossPW⟩ := h
  simp only at subPW curPW crossPW
  cases hd : entryDir fs en with
  | none =>
    refine ⟨?_, ?_, ?_⟩
    · simpa using subPW
    · cases en with
      | ok en' => exact curPW.of_cons
      | error er => exact curPW
    · intro q hq p hp
      simp only [Option.toList_none, List.append_nil] at hq
      exact crossPW q hq p (okPaths_subset_cons en hp)
  | some p0 =>
    obtain ⟨en', rfl, hpath, _⟩ := entryDir_some hd
    subst hpath
    have hcur : okPaths (Except.ok en' :: rest) =
        en'.path :: okPaths rest := rfl
    rw [hcur] at curPW crossPW
    refine ⟨?_, ?_, ?_⟩
    · rw [List.pairwise_append]
      refine ⟨subPW, List.pairwise_singleton _ _, ?_⟩
      intro a ha b hb
      simp only [Option.toList_some, List.mem_singleton] at hb
      subst hb
      exact crossPW a ha en'.path (List.mem_cons_self _ _)
    · exact curPW.of_cons
    · intro q hq p hp
      rcases List.mem_append.mp hq with hq1 | hq2
      · exact crossPW q hq1 p (List.mem_cons_of_mem _ hp)
      · simp only [Option.toList_some, List.mem_singleton] at hq2
        subst hq2
        have := (List.pairwise_cons.mp curPW).1 p hp
        exact this

theorem stWF_pop {fs : Fs} {x : Option (List String)} {ds' : List Path}
    {d : Path} {es : List (Except Nat String)}
    (hnames : NodupNames fs)
    (h : StWF fs ⟨x, ds' ++ [d], []⟩) (hrd : fs.readDir d = .ok es) :
    StWF fs ⟨x, ds', mkCursor d es⟩ := by
  obtain ⟨subPW, _, _⟩ := h
  simp only at subPW
  rw [List.pairwise_append] at subPW
  obtain ⟨hds', _, hrel⟩ := subPW
  have hreld : ∀ q ∈ ds', ¬ below q d ∧ ¬ below d q := by
    intro q hq
    exact hrel q hq d (List.mem_singleton_self d)
  refine ⟨hds', ?_, ?_⟩
  · simp only [okPaths_mkCursor]
    rw [List.pairwise_map]
    have hnd : (okNames es).Nodup := hnames d es hrd
    refine hnd.imp ?_
    intro n m hnm
    constructor
    · intro hb
      have heq := below_eq_of_length hb (by simp)
      have := List.append_cancel_left heq
      injection this with h1
      exact hnm h1
    · intro hb
      have heq := below_eq_of_length hb (by simp)
      have := List.append_cancel_left heq
      injection this with h1
      exact hnm h1.symm
  · intro q hq p hp
    simp only [okPaths_mkCursor, List.mem_map] at hp
    obtain ⟨n, _, rfl⟩ := hp
    obtain ⟨hqd, hdq⟩ := hreld q hq
    constructor
    · intro hb
      rcases below_snoc.mp hb with hb1 | rfl
      · exact hqd hb1
      · exact hdq (below_snoc_self d n)
    · intro hb
      exact hdq (below_trans (below_snoc_self d n) hb)

/-- Every directory opened during a run lies in the subtree of a
pending directory or of a cursor entry of the starting state. -/
theorem run_os_cone {fs : Fs} :
    ∀ (fuel : Nat) (x : Option (List String)) (ds : List Path)
      (cur : List (Except Nat DirEntry)) (is : List (Except Nat FileInfo))
      (os : List Path),
      run fs fuel ⟨x, ds, cur⟩ = some (is, os) →
      ∀ o ∈ os, ∃ q, (q ∈ ds ∨ q ∈ okPaths cur) ∧ below q o := by
  intro fuel
  induction fuel with
  | zero => intro x ds cur is os h; cases h
  | succ f ih =>
    intro x ds cur is os h o ho
    cases cur with
    | cons en rest =>
      have hso : stepOpened ⟨x, ds, en :: rest⟩ = [] := rfl
      have hnext : ∀ is' os', run fs f
          ⟨x, ds ++ (entryDir fs en).toList, rest⟩ = some (is', os') →
          os' = os → ∃ q, (q ∈ ds ∨ q ∈ okPaths (en :: rest)) ∧ below q o := by
        intro is' os' hrun hos
        obtain ⟨q, hq, hb⟩ := ih x _ rest is' os' hrun o (by rw [hos]; exact ho)
        rcases hq with hq1 | hq2
        · rcases List.mem_append.mp hq1 with hq3 | hq4
          · exact ⟨q, Or.inl hq3, hb⟩
          · cases hd : entryDir fs en with
            | none => rw [hd] at hq4; cases hq4
            | some p =>
              rw [hd] at hq4
              simp only [Option.toList_some, List.mem_singleton] at hq4
              subst hq4
              obtain ⟨en', rfl, hpath, _⟩ := entryDir_some hd
              subst hpath
              exact ⟨en'.path, Or.inr (List.mem_cons_self _ _), hb⟩
        · exact ⟨q, Or.inr (okPaths_subset_cons en hq2), hb⟩
      cases hr : entryRes fs x en with
      | ok oi =>
        cases oi with
        | none =>
          have hs := step_cons fs x ds en rest
          rw [hr] at hs
          rw [run_succ_cont f hs] at h
          obtain ⟨⟨is', os'⟩, hrun, heq⟩ := Option.map_eq_some'.mp h
          simp only [hso, List.nil_append] at heq
          injection heq with hi ho2
          exact hnext is' os' hrun ho2
        | some fi =>
          have hs := step_cons fs x ds en rest
          rw [hr] at hs
          rw [run_succ_yield f hs] at h
          obtain ⟨⟨is', os'⟩, hrun, heq⟩ := Option.map_eq_some'.mp h
          simp only [hso, List.nil_append] at heq
          injection heq with hi ho2
          exact hnext is' os' hrun ho2
      | error er =>
        have hs := step_cons fs x ds en rest
        rw [hr] at hs
        rw [run_succ_yield f hs] at h
        obtain ⟨⟨is', os'⟩, hrun, heq⟩ := Option.map_eq_some'.mp h
        simp only [hso, List.nil_append] at heq
        injection heq with hi ho2
        exact hnext is' os' hrun ho2
    | nil =>
      rcases List.eq_nil_or_concat ds with rfl | ⟨ds', d, hc⟩
      · have hs : step fs (⟨x, [], []⟩ : FileTraverser) = .stop := rfl
        rw [run_succ_stop f hs] at h
        injection h with h'
        injection h' with hi ho2
        subst ho2
        cases ho
      · rw [List.concat_eq_append] at hc; subst hc
        have hso := stepOpened_pop x ds' d
        cases hrd : fs.readDir d with
        | error er =>
          have hs : step fs ⟨x, ds' ++ [d], []⟩ =
              .yieldItem (.error er) ⟨x, ds', []⟩ := by
            simp [step, List.getLast?_concat, List.dropLast_concat, hrd]
          rw [run_succ_yield f hs] at h
          obtain ⟨⟨is', os'⟩, hrun, heq⟩ := Option.map_eq_some'.mp h
          simp only [hso] at heq
          injection heq with hi ho2
          subst ho2
          rcases List.mem_cons.mp ho with rfl | hmem
          · exact ⟨o, Or.inl (List.mem_append_right _ (List.mem_singleton_self o)),
              below_refl o⟩
          · obtain ⟨q, hq, hb⟩ := ih x ds' [] is' os' hrun o hmem
            rcases hq with hq1 | hq2
            · exact ⟨q, Or.inl (List.mem_append_left _ hq1), hb⟩
            · cases hq2
        | ok es =>
          have hs : step fs ⟨x, ds' ++ [d], []⟩ =
              .cont ⟨x, ds', mkCursor d es⟩ := by
            simp [step, List.getLast?_concat, List.dropLast_concat, hrd]
          rw [run_succ_cont f hs] at h
          obtain ⟨⟨is', os'⟩, hrun, heq⟩ := Option.map_eq_some'.mp h
          simp only [hso] at heq
          injection heq with hi ho2
          subst ho2
          rcases List.mem_cons.mp ho with rfl | hmem
          · exact ⟨o, Or.inl (List.mem_append_right _ (List.mem_singleton_self o)),
              below_refl o⟩
          · obtain ⟨q, hq, hb⟩ := ih x ds' (mkCursor d es) is' os' hrun o hmem
            rcases hq with hq1 | hq2
            · exact ⟨q, Or.inl (List.mem_append_left _ hq1), hb⟩
            · simp only [okPaths_mkCursor, List.mem_map] at hq2
              obtain ⟨n, _, rfl⟩ := hq2
              exact ⟨d, Or.inl (List.mem_append_right _ (List.mem_singleton_self d)),
                below_trans (below_snoc_self d n) hb⟩

theorem stWF_pop_err {fs : Fs} {x : Option (List String)}
    {ds' : List Path} {d : Path}
    (h : StWF fs ⟨x, ds' ++ [d], []⟩) : StWF fs ⟨x, ds', []⟩ := by
  obtain ⟨subPW, _, _⟩ := h
  simp only at subPW
  rw [List.pairwise_append] at subPW
  exact ⟨subPW.1, List.Pairwise.nil, by intro q _ p hp; cases hp⟩

/-- No directory is opened twice in a run from a well-formed state. -/
theorem run_os_nodup {fs : Fs} (hnames : NodupNames fs) :
    ∀ (fuel : Nat) (x : Option (List String)) (ds : List Path)
      (cur : List (Except Nat DirEntry)) (is : List (Except Nat FileInfo))
      (os : List Path),
      run fs fuel ⟨x, ds, cur⟩ = some (is, os) →
      StWF fs ⟨x, ds, cur⟩ → os.Nodup := by
  intro fuel
  induction fuel with
  | zero => intro x ds cur is os h; cases h
  | succ f ih =>
    intro x ds cur is os h hwf
    cases cur with
    | cons en rest =>
      have hso : stepOpened ⟨x, ds, en :: rest⟩ = [] := rfl
      have hwf' := stWF_entry hwf
      cases hr : entryRes fs x en with
      | ok oi =>
        cases oi with
        | none =>
          have hs := step_cons fs x ds en rest
          rw [hr] at hs
          rw [run_succ_cont f hs] at h
          obtain ⟨⟨is', os'⟩, hrun, heq⟩ := Option.map_eq_some'.mp h
          simp only [hso, List.nil_append] at heq
          injection heq with hi ho; subst ho
          exact ih x _ rest is' os' hrun hwf'
        | some fi =>
          have hs := step_cons fs x ds en rest
          rw [hr] at hs
          rw [run_succ_yield f hs] at h
          obtain ⟨⟨is', os'⟩, hrun, heq⟩ := Option.map_eq_some'.mp h
          simp only [hso, List.nil_append] at heq
          injection heq with hi ho; subst ho
          exact ih x _ rest is' os' hrun hwf'
      | error er =>
        have hs := step_cons fs x ds en rest
        rw [hr] at hs
        rw [run_succ_yield f hs] at h
        obtain ⟨⟨is', os'⟩, hrun, heq⟩ := Option.map_eq_some'.mp h
        simp only [hso, List.nil_append] at heq
        injection heq with hi ho; subst ho
        exact ih x _ rest is' os' hrun hwf'
    | nil =>
      rcases List.eq_nil_or_concat ds with rfl | ⟨ds', d, hc⟩
      · have hs : step fs (⟨x, [], []⟩ : FileTraverser) = .stop := rfl
        rw [run_succ_stop f hs] at h
        injection h with h'
        injection h' with hi ho
        subst ho
        exact List.nodup_nil
      · rw [List.concat_eq_append] at hc; subst hc
        have hso := stepOpened_pop x ds' d
        have hqd : ∀ q ∈ ds', ¬ below q d := by
          have := hwf.subPW
          simp only at this
          rw [List.pairwise_append] at this
          intro q hq
          exact (this.2.2 q hq d (List.mem_singleton_self d)).1
        cases hrd : fs.readDir d with
        | error er =>
          have hs : step fs ⟨x, ds' ++ [d], []⟩ =
              .yieldItem (.error er) ⟨x, ds', []⟩ := by
            simp [step, List.getLast?_concat, List.dropLast_concat, hrd]
          rw [run_succ_yield f hs] at h
          obtain ⟨⟨is', os'⟩, hrun, heq⟩ := Option.map_eq_some'.mp h
          simp only [hso] at heq
          injection heq with hi ho; subst ho
          refine List.nodup_cons.mpr ⟨?_, ih x ds' [] is' os' hrun
            (stWF_pop_err hwf)⟩
          intro hd
          obtain ⟨q, hq, hb⟩ := run_os_cone f x ds' [] is' os' hrun d hd
          rcases hq with hq1 | hq2
          · exact hqd q hq1 hb
          · cases hq2
        | ok es =>
          have hs : step fs ⟨x, ds' ++ [d], []⟩ =
              .cont ⟨x, ds', mkCursor d es⟩ := by
            simp [step, List.getLast?_concat, List.dropLast_concat, hrd]
          rw [run_succ_cont f hs] at h
          obtain ⟨⟨is', os'⟩, hrun, heq⟩ := Option.map_eq_some'.mp h
          simp only [hso] at heq
          injection heq with hi ho; subst ho
          refine List.nodup_cons.mpr ⟨?_, ih x ds' (mkCursor d es) is' os'
            hrun (stWF_pop hnames hwf hrd)⟩
          intro hd
          obtain ⟨q, hq, hb⟩ :=
            run_os_cone f x ds' (mkCursor d es) is' os' hrun d hd
          rcases hq with hq1 | hq2
          · exact hqd q hq1 hb
          · simp only [okPaths_mkCursor, List.mem_map] at hq2
            obtain ⟨n, _, rfl⟩ := hq2
            exact not_below_snoc_left hb

theorem filePaths_cons_ok (fi : FileInfo)
    (is : List (Except Nat FileInfo)) :
    filePaths (.ok fi :: is) = fi.path :: filePaths is := rfl

theorem filePaths_cons_error (er : Nat)
    (is : List (Except Nat FileInfo)) :
    filePaths (.error er :: is) = filePaths is := rfl

/-- Every yielded file path lies in the subtree of a pending directory
or of a cursor entry of the starting state. -/
theorem run_filePaths_cone {fs : Fs} :
    ∀ (fuel : Nat) (x : Option (List String)) (ds : List Path)
      (cur : List (Except Nat DirEntry)) (is : List (Except Nat FileInfo))
      (os : List Path),
      run fs fuel ⟨x, ds, cur⟩ = some (is, os) →
      ∀ p ∈ filePaths is, ∃ q, (q ∈ ds ∨ q ∈ okPaths cur) ∧ below q p := by
  intro fuel
  induction fuel with
  | zero => intro x ds cur is os h; cases h
  | succ f ih =>
    intro x ds cur is os h p hp
    cases cur with
    | cons en rest =>
      have hso : stepOpened ⟨x, ds, en :: rest⟩ = [] := rfl
      have hnext : ∀ is' os', run fs f
          ⟨x, ds ++ (entryDir fs en).toList, rest⟩ = some (is', os') →
          p ∈ filePaths is' →
          ∃ q, (q ∈ ds ∨ q ∈ okPaths (en :: rest)) ∧ below q p := by
        intro is' os' hrun hp'
        obtain ⟨q, hq, hb⟩ := ih x _ rest is' os' hrun p hp'
        rcases hq with hq1 | hq2
        · rcases List.mem_append.mp hq1 with hq3 | hq4
          · exact ⟨q, Or.inl hq3, hb⟩
          · cases hd : entryDir fs en with
            | none => rw [hd] at hq4; cases hq4
            | some p0 =>
              rw [hd] at hq4
              simp only [Option.toList_some, List.mem_singleton] at hq4
              subst hq4
              obtain ⟨en', rfl, hpath, _⟩ := entryDir_some hd
              subst hpath
              exact ⟨en'.path, Or.inr (List.mem_cons_self _ _), hb⟩
        · exact ⟨q, Or.inr (okPaths_subset_cons en hq2), hb⟩
      cases hr : entryRes fs x en with
      | ok oi =>
        cases oi with
        | none =>
          have hs := step_cons fs x ds en rest
          rw [hr] at hs
          rw [run_succ_cont f hs] at h
          obtain ⟨⟨is', os'⟩, hrun, heq⟩ := Option.map_eq_some'.mp h
          simp only [hso, List.nil_append] at heq
          injection heq with hi ho; subst hi
          exact hnext is' os' hrun hp
        | some fi =>
          have hs := step_cons fs x ds en rest
          rw [hr] at hs
          rw [run_succ_yield f hs] at h
          obtain ⟨⟨is', os'⟩, hrun, heq⟩ := Option.map_eq_some'.mp h
          simp only [hso, List.nil_append] at heq
          injection heq with hi ho; subst hi
          rw [filePaths_cons_ok] at hp
          rcases List.mem_cons.mp hp with rfl | hmem
          · obtain ⟨en', rfl, hpath, _, _, _⟩ := entryRes_ok_some hr
            rw [hpath]
            exact ⟨en'.path, Or.inr (List.mem_cons_self _ _), below_refl _⟩
          · exact hnext is' os' hrun hmem
      | error er =>
        have hs := step_cons fs x ds en rest
        rw [hr] at hs
        rw [run_succ_yield f hs] at h
        obtain ⟨⟨is', os'⟩, hrun, heq⟩ := Option.map_eq_some'.mp h
        simp only [hso, List.nil_append] at heq
        injection heq with hi ho; subst hi
        rw [filePaths_cons_error] at hp
        exact hnext is' os' hrun hp
    | nil =>
      rcases List.eq_nil_or_concat ds with rfl | ⟨ds', d, hc⟩
      · have hs : step fs (⟨x, [], []⟩ : FileTraverser) = .stop := rfl
        rw [run_succ_stop f hs] at h
        injection h with h'
        injection h' with hi ho
        subst hi
        cases hp
      · rw [List.concat_eq_append] at hc; subst hc
        have hso := stepOpened_pop x ds' d
        cases hrd : fs.readDir d with
        | error er =>
          have hs : step fs ⟨x, ds' ++ [d], []⟩ =
              .yieldItem (.error er) ⟨x, ds', []⟩ := by
            simp [step, List.getLast?_concat, List.dropLast_concat, hrd]
          rw [run_succ_yield f hs] at h
          obtain ⟨⟨is', os'⟩, hrun, heq⟩ := Option.map_eq_some'.mp h
          simp only [hso] at heq
          injection heq with hi ho; subst hi
          rw [filePaths_cons_error] at hp
          obtain ⟨q, hq, hb⟩ := ih x ds' [] is' os' hrun p hp
          rcases hq with hq1 | hq2
          · exact ⟨q, Or.inl (List.mem_append_left _ hq1), hb⟩
          · cases hq2
        | ok es =>
          have hs : step fs ⟨x, ds' ++ [d], []⟩ =
              .cont ⟨x, ds', mkCursor d es⟩ := by
            simp [step, List.getLast?_concat, List.dropLast_concat, hrd]
          rw [run_succ_cont f hs] at h
          obtain ⟨⟨is', os'⟩, hrun, heq⟩ := Option.map_eq_some'.mp h
          simp only [hso] at heq
          injection heq with hi ho; subst hi
          obtain ⟨q, hq, hb⟩ := ih x ds' (mkCursor d es) is' os' hrun p hp
          rcases hq with hq1 | hq2
          · exact ⟨q, Or.inl (List.mem_append_left _ hq1), hb⟩
          · simp only [okPaths_mkCursor, List.mem_map] at hq2
            obtain ⟨n, _, rfl⟩ := hq2
            exact ⟨d, Or.inl (List.mem_append_right _ (List.mem_singleton_self d)),
              below_trans (below_snoc_self d n) hb⟩

/-- No file is yielded twice in a run from a well-formed state. -/
theorem run_filePaths_nodup {fs : Fs} (hnames : NodupNames fs) :
    ∀ (fuel : Nat) (x : Option (List String)) (ds : List Path)
      (cur : List (Except Nat DirEntry)) (is : List (Except Nat FileInfo))
      (os : List Path),
      run fs fuel ⟨x, ds, cur⟩ = some (is, os) →
      StWF fs ⟨x, ds, cur⟩ → (filePaths is).Nodup := by
  intro fuel
  induction fuel with
  | zero => intro x ds cur is os h; cases h
  | succ f ih =>
    intro x ds cur is os h hwf
    cases cur with
    | cons en rest =>
      have hso : stepOpened ⟨x, ds, en :: rest⟩ = [] := rfl
      have hwf' := stWF_entry hwf
      cases hr : entryRes fs x en with
      | ok oi =>
        cases oi with
        | none =>
          have hs := step_cons fs x ds en rest
          rw [hr] at hs
          rw [run_succ_cont f hs] at h
          obtain ⟨⟨is', os'⟩, hrun, heq⟩ := Option.map_eq_some'.mp h
          simp only [hso, List.nil_append] at heq
          injection heq with hi ho; subst hi
          exact ih x _ rest is' os' hrun hwf'
        | some fi =>
          have hs := step_cons fs x ds en rest
          rw [hr] at hs
          rw [run_succ_yield f hs] at h
          obtain ⟨⟨is', os'⟩, hrun, heq⟩ := Option.map_eq_some'.mp h
          simp only [hso, List.nil_append] at heq
          injection heq with hi ho; subst hi
          rw [filePaths_cons_ok]
          obtain ⟨en', rfl, hpath, hft, _, _⟩ := entryRes_ok_some hr
          have hdnone : entryDir fs (.ok en') = none :=
            entryDir_none_of_file hft
          refine List.nodup_cons.mpr ⟨?_, ih x _ rest is' os' hrun hwf'⟩
          intro hmem
          obtain ⟨q, hq, hb⟩ := run_filePaths_cone f x _ rest is' os' hrun
            fi.path hmem
          rw [hpath] at hb
          rcases hq with hq1 | hq2
          · rw [hdnone] at hq1
            simp only [Option.toList_none, List.append_nil] at hq1
            have hcross := hwf.crossPW q hq1 en'.path
              (List.mem_cons_self _ _)
            exact hcross.1 hb
          · have hcur := hwf.curPW
            have hcons : okPaths (Except.ok en' :: rest) =
                en'.path :: okPaths rest := rfl
            rw [hcons] at hcur
            exact ((List.pairwise_cons.mp hcur).1 q hq2).2 hb
      | error er =>
        have hs := step_cons fs x ds en rest
        rw [hr] at hs
        rw [run_succ_yield f hs] at h
        obtain ⟨⟨is', os'⟩, hrun, heq⟩ := Option.map_eq_some'.mp h
        simp only [hso, List.nil_append] at heq
        injection heq with hi ho; subst hi
        rw [filePaths_cons_error]
        exact ih x _ rest is' os' hrun hwf'
    | nil =>
      rcases List.eq_nil_or_concat ds with rfl | ⟨ds', d, hc⟩
      · have hs : step fs (⟨x, [], []⟩ : FileTraverser) = .stop := rfl
        rw [run_succ_stop f hs] at h
        injection h with h'
        injection h' with hi ho
        subst hi
        exact List.nodup_nil
      · rw [List.concat_eq_append] at hc; subst hc
        have hso := stepOpened_pop x ds' d
        cases hrd : fs.readDir d with
        | error er =>
          have hs : step fs ⟨x, ds' ++ [d], []⟩ =
              .yieldItem (.error er) ⟨x, ds', []⟩ := by
            simp [step, List.getLast?_concat, List.dropLast_concat, hrd]
          rw [run_succ_yield f hs] at h
          obtain ⟨⟨is', os'⟩, hrun, heq⟩ := Option.map_eq_some'.mp h
          simp only [hso] at heq
          injection heq with hi ho; subst hi
          rw [filePaths_cons_error]
          exact ih x ds' [] is' os' hrun (stWF_pop_err hwf)
        | ok es =>
          have hs : step fs ⟨x, ds' ++ [d], []⟩ =
              .cont ⟨x, ds', mkCursor d es⟩ := by
            simp [step, List.getLast?_concat, List.dropLast_concat, hrd]
          rw [run_succ_cont f hs] at h
          obtain ⟨⟨is', os'⟩, hrun, heq⟩ := Option.map_eq_some'.mp h
          simp only [hso] at heq
          injection heq with hi ho; subst hi
          exact ih x ds' (mkCursor d es) is' os' hrun
            (stWF_pop hnames hwf hrd)

/-- In a completed run, every pending directory is opened, every
directory discovered by the cursor is opened, and every directory entry
of an opened directory is opened. -/
theorem run_opens_all {fs : Fs} :
    ∀ (fuel : Nat) (x : Option (List String)) (ds : List Path)
      (cur : List (Except Nat DirEntry)) (is : List (Except Nat FileInfo))
      (os : List Path),
      run fs fuel ⟨x, ds, cur⟩ = some (is, os) →
      (∀ d ∈ ds, d ∈ os) ∧
      (∀ e ∈ cur, ∀ p, entryDir fs e = some p → p ∈ os) ∧
      (∀ d ∈ os, ∀ es, fs.readDir d = .ok es → ∀ n, Except.ok n ∈ es →
        fs.fileType (d ++ [n]) = .ok .dir → d ++ [n] ∈ os) := by
  intro fuel
  induction fuel with
  | zero => intro x ds cur is os h; cases h
  | succ f ih =>
    intro x ds cur is os h
    cases cur with
    | cons en rest =>
      have hso : stepOpened ⟨x, ds, en :: rest⟩ = [] := rfl
      have hnext : ∀ is' os', run fs f
          ⟨x, ds ++ (entryDir fs en).toList, rest⟩ = some (is', os') →
          os' = os →
          (∀ d ∈ ds, d ∈ os) ∧
          (∀ e ∈ en :: rest, ∀ p, entryDir fs e = some p → p ∈ os) ∧
          (∀ d ∈ os, ∀ es, fs.readDir d = .ok es → ∀ n, Except.ok n ∈ es →
            fs.fileType (d ++ [n]) = .ok .dir → d ++ [n] ∈ os) := by
        intro is' os' hrun hos
        subst hos
        obtain ⟨A, B, C⟩ := ih x _ rest is' os' hrun
        refine ⟨?_, ?_, C⟩
        · intro d hd
          exact A d (List.mem_append_left _ hd)
        · intro e he p hp
          rcases List.mem_cons.mp he with rfl | hmem
          · refine A p ?_
            rw [hp]
            exact List.mem_append_right _ (List.mem_singleton_self p)
          · exact B e hmem p hp
      cases hr : entryRes fs x en with
      | ok oi =>
        cases oi with
        | none =>
          have hs := step_cons fs x ds en rest
          rw [hr] at hs
          rw [run_succ_cont f hs] at h
          obtain ⟨⟨is', os'⟩, hrun, heq⟩ := Option.map_eq_some'.mp h
          simp only [hso, List.nil_append] at heq
          injection heq with hi ho
          exact hnext is' os' hrun ho
        | some fi =>
          have hs := step_cons fs x ds en rest
          rw [hr] at hs
          rw [run_succ_yield f hs] at h
          obtain ⟨⟨is', os'⟩, hrun, heq⟩ := Option.map_eq_some'.mp h
          simp only [hso, List.nil_append] at heq
          injection heq with hi ho
          exact hnext is' os' hrun ho
      | error er =>
        have hs := step_cons fs x ds en rest
        rw [hr] at hs
        rw [run_succ_yield f hs] at h
        obtain ⟨⟨is', os'⟩, hrun, heq⟩ := Option.map_eq_some'.mp h
        simp only [hso, List.nil_append] at heq
        injection heq with hi ho
        exact hnext is' os' hrun ho
    | nil =>
      rcases List.eq_nil_or_concat ds with rfl | ⟨ds', d0, hc⟩
      · have hs : step fs (⟨x, [], []⟩ : FileTraverser) = .stop := rfl
        rw [run_succ_stop f hs] at h
        injection h with h'
        injection h' with hi ho
        subst ho
        exact ⟨fun d hd => absurd hd (List.not_mem_nil _),
          fun e he => absurd he (List.not_mem_nil _),
          fun d hd => absurd hd (List.not_mem_nil _)⟩
      · rw [List.concat_eq_append] at hc; subst hc
        have hso := stepOpened_pop x ds' d0
        cases hrd : fs.readDir d0 with
        | error er =>
          have hs : step fs ⟨x, ds' ++ [d0], []⟩ =
              .yieldItem (.error er) ⟨x, ds', []⟩ := by
            simp [step, List.getLast?_concat, List.dropLast_concat, hrd]
          rw [run_succ_yield f hs] at h
          obtain ⟨⟨is', os'⟩, hrun, heq⟩ := Option.map_eq_some'.mp h
          simp only [hso] at heq
          injection heq with hi ho; subst ho
          obtain ⟨A, _, C⟩ := ih x ds' [] is' os' hrun
          refine ⟨?_, ?_, ?_⟩
          · intro d hd
            rcases List.mem_append.mp hd with hd1 | hd2
            · exact List.mem_cons_of_mem _ (A d hd1)
            · rw [List.mem_singleton] at hd2
              subst hd2
              exact List.mem_cons_self _ _
          · intro e he; cases he
          · intro d hd es hes n hn hft
            rcases List.mem_cons.mp hd with rfl | hmem
            · rw [hrd] at hes; cases hes
            · exact List.mem_cons_of_mem _ (C d hmem es hes n hn hft)
        | ok es0 =>
          have hs : step fs ⟨x, ds' ++ [d0], []⟩ =
              .cont ⟨x, ds', mkCursor d0 es0⟩ := by
            simp [step, List.getLast?_concat, List.dropLast_concat, hrd]
          rw [run_succ_cont f hs] at h
          obtain ⟨⟨is', os'⟩, hrun, heq⟩ := Option.map_eq_some'.mp h
          simp only [hso] at heq
          injection heq with hi ho; subst ho
          obtain ⟨A, B, C⟩ := ih x ds' (mkCursor d0 es0) is' os' hrun
          refine ⟨?_, ?_, ?_⟩
          · intro d hd
            rcases List.mem_append.mp hd with hd1 | hd2
            · exact List.mem_cons_of_mem _ (A d hd1)
            · rw [List.mem_singleton] at hd2
              subst hd2
              exact List.mem_cons_self _ _
          · intro e he; cases he
          · intro d hd es hes n hn hft
            rcases List.mem_cons.mp hd with rfl | hmem
            · rw [hrd] at hes
              injection hes with hes'
              subst hes'
              refine List.mem_cons_of_mem _ ?_
              refine B (.ok ⟨d ++ [n], n⟩)
                (mkCursor_ok_mem.mpr ⟨n, rfl, hn⟩) (d ++ [n]) ?_
              simp [entryDir, hft]
            · exact List.mem_cons_of_mem _ (C d hmem es hes n hn hft)

/-- C8: on a finite directory tree (depth bound `N`, duplicate-free
directory listings, pairwise non-overlapping roots -- the rendering of
"no symlink cycles"), the traversal terminates: some fuel makes `run`
return; every directory reachable from the roots is opened (appears in
the trace `r :: os`, the first root being opened by the construction),
no directory is opened twice, and no file is yielded twice. -/
theorem c8_terminates_visits_once (fs : Fs) (N : Nat)
    (x : Option (List String)) (r : Path) (rest : List Path)
    (t : FileTraverser)
    (hfin : FiniteFs fs N)
    (hnames : NodupNames fs)
    (hroots : (r :: rest).Pairwise (fun a b => ¬ below a b ∧ ¬ below b a))
    (ht : traverse fs (r :: rest) x = .ok t) :
    ∃ fuel is os, run fs fuel t = some (is, os) ∧
      (r :: os).Nodup ∧
      (∀ d, ReachDir fs (r :: rest) d → d ∈ r :: os) ∧
      (filePaths is).Nodup := by
  obtain ⟨es0, hrd0, rfl⟩ := traverse_ok ht
  have hroots' := List.pairwise_cons.mp hroots
  have hwf0 : StWF fs ⟨x, rest ++ [r], []⟩ := by
    refine ⟨?_, List.Pairwise.nil, ?_⟩
    · simp only
      rw [List.pairwise_append]
      refine ⟨hroots'.2, List.pairwise_singleton _ _, ?_⟩
      intro a ha b hb
      rw [List.mem_singleton] at hb
      subst hb
      obtain ⟨h1, h2⟩ := hroots'.1 a ha
      exact ⟨h2, h1⟩
    · intro q _ p hp
      cases hp
  have hwf : StWF fs ⟨x, rest, mkCursor r es0⟩ := stWF_pop hnames hwf0 hrd0
  obtain ⟨fuel, ⟨is, os⟩, hrun⟩ :=
    run_total hfin (⟨x, rest, mkCursor r es0⟩ : FileTraverser)
  refine ⟨fuel, is, os, hrun, ?_, ?_, ?_⟩
  · refine List.nodup_cons.mpr ⟨?_,
      run_os_nodup hnames fuel x rest (mkCursor r es0) is os hrun hwf⟩
    intro hr
    obtain ⟨q, hq, hb⟩ :=
      run_os_cone fuel x rest (mkCursor r es0) is os hrun r hr
    rcases hq with hq1 | hq2
    · exact (hroots'.1 q hq1).2 hb
    · simp only [okPaths_mkCursor, List.mem_map] at hq2
      obtain ⟨n, _, rfl⟩ := hq2
      exact not_below_snoc_left hb
  · obtain ⟨A, B, C⟩ :=
      run_opens_all fuel x rest (mkCursor r es0) is os hrun
    intro d hd
    induction hd with
    | root p hp =>
      rcases List.mem_cons.mp hp with rfl | hmem
      · exact List.mem_cons_self _ _
      · exact List.mem_cons_of_mem _ (A p hmem)
    | child p es n hre hrd hn hft ihm =>
      rcases List.mem_cons.mp ihm with rfl | hmem
      · rw [hrd0] at hrd
        injection hrd with hes
        subst hes
        refine List.mem_cons_of_mem _ ?_
        refine B (.ok ⟨p ++ [n], n⟩)
          (mkCursor_ok_mem.mpr ⟨n, rfl, hn⟩) (p ++ [n]) ?_
        simp [entryDir, hft]
      · exact List.mem_cons_of_mem _ (C p hmem es hrd n hn hft)
  · exact run_filePaths_nodup hnames fuel x rest (mkCursor r es0) is os
      hrun hwf

/-- The concrete tree has no entries at depth 3 or beyond. -/
theorem fsW_finite : FiniteFs fsW 3 := by
  intro p hp es hes
  have h1 : p ≠ ["r"] := by
    intro h; subst h; simp at hp
  have h2 : p ≠ ["r", "sub"] := by
    intro h; subst h; simp at hp
  simp only [fsW, if_neg h1, if_neg h2] at hes
  cases hes

/-- The concrete tree's listings are duplicate-free. -/
theorem fsW_nodupNames : NodupNames fsW := by
  intro p es hes
  by_cases h1 : p = ["r"]
  · subst h1
    simp only [fsW, if_pos rfl] at hes
    injection hes with hes'
    subst hes'
    decide
  · by_cases h2 : p = ["r", "sub"]
    · subst h2
      simp only [fsW, if_neg h1, if_pos rfl] at hes
      injection hes with hes'
      subst hes'
      decide
    · simp only [fsW, if_neg h1, if_neg h2] at hes
      cases hes

/-- C8 witness: the concrete tree satisfies the finiteness assumptions,
and its traversal from root `r` terminates, opening each reachable
directory exactly once and yielding each file at most once. -/
theorem c8_witness :
    ∃ fuel is os,
      run fsW fuel ⟨none, [],
        mkCursor ["r"] [.ok "a.rs", .ok "sub", .ok "b.md", .ok "link"]⟩ =
        some (is, os) ∧
      ((["r"] : Path) :: os).Nodup ∧
      (∀ d, ReachDir fsW [["r"]] d → d ∈ (["r"] : Path) :: os) ∧
      (filePaths is).Nodup :=
  c8_terminates_visits_once fsW 3 none ["r"] []
    ⟨none, [], mkCursor ["r"] [.ok "a.rs", .ok "sub", .ok "b.md", .ok "link"]⟩
    fsW_finite fsW_nodupNames (List.pairwise_singleton _ _) rfl

/-! ## Driver lemmas -/

theorem runFiles_ne_panicked (fs : Fs) :
    ∀ (fl : List Path) (ls : List (Path × Nat)) (total : Nat),
      runFiles fs fl ls total ≠ .panicked := by
  intro fl
  induction fl with
  | nil => intro ls total h; cases h
  | cons p fl ih =>
    intro ls total h
    simp only [runFiles] at h
    cases hop : fs.openFile p <;> rw [hop] at h
    · cases h
    · exact ih _ _ h

theorem runFiles_ok {fs : Fs} :
    ∀ (fl : List Path) (ls ls' : List (Path × Nat)) (total total' : Nat),
      runFiles fs fl ls total = .ok ls' total' →
      ls' = ls ++ fl.map (fun p => (p, countLines (openedContent fs p))) ∧
      total' = total +
        ((fl.map (fun p => countLines (openedContent fs p))).sum) ∧
      ∀ p ∈ fl, ∃ c, fs.openFile p = .ok c := by
  intro fl
  induction fl with
  | nil =>
    intro ls ls' total total' h
    injection h with h1 h2
    subst h1; subst h2
    exact ⟨by simp, by simp, fun p hp => absurd hp (List.not_mem_nil _)⟩
  | cons p fl ih =>
    intro ls ls' total total' h
    simp only [runFiles] at h
    cases hop : fs.openFile p with
    | error e => rw [hop] at h; cases h
    | ok c =>
      rw [hop] at h
      obtain ⟨h1, h2, h3⟩ := ih _ _ _ _ h
      have hoc : openedContent fs p = c := by
        unfold openedContent
        rw [hop]
      refine ⟨?_, ?_, ?_⟩
      · rw [h1]
        simp [write_info, List.map_cons, hoc]
      · rw [h2]
        simp only [List.map_cons, List.sum_cons, hoc, write_info]
        omega
      · intro q hq
        rcases List.mem_cons.mp hq with rfl | hmem
        · exact ⟨_, hop⟩
        · exact h3 q hmem

theorem mainLoop_ok_sum {fs : Fs} :
    ∀ (fuel : Nat) (t : FileTraverser) (ls ls' : List (Path × Nat))
      (total total' : Nat),
      mainLoop fs fuel t ls total = some (.ok ls' total') →
      ∃ dl, ls' = ls ++ dl ∧ total' = total + (dl.map Prod.snd).sum := by
  intro fuel
  induction fuel with
  | zero => intro t ls ls' total total' h; cases h
  | succ f ih =>
    intro t ls ls' total total' h
    simp only [mainLoop] at h
    cases hs : step fs t with
    | stop =>
      rw [hs] at h
      injection h with h'
      injection h' with h1 h2
      subst h1; subst h2
      exact ⟨[], by simp, by simp⟩
    | yieldItem i t' =>
      rw [hs] at h
      cases i with
      | error e => injection h with h'; cases h'
      | ok fi =>
        obtain ⟨dl, h1, h2⟩ := ih t' _ _ _ _ h
        refine ⟨(fi.path, countLines fi.file) :: dl, ?_, ?_⟩
        · rw [h1]
          simp [write_info]
        · rw [h2]
          simp only [write_info, List.map_cons, List.sum_cons]
          omega
    | cont t' =>
      rw [hs] at h
      exact ih t' _ _ _ _ h

theorem locsMain_err_eq {fs : Fs} {paths : List Path}
    {x : Option (List String)} {fuel : Nat} {ls0 : List (Path × Nat)}
    {e0 : Nat}
    (hrf : runFiles fs (paths.partition fs.isFile).1 [] 0 = .err ls0 e0) :
    locsMain fs paths x fuel = some (.err ls0 e0) := by
  unfold locsMain
  rw [hrf]

theorem locsMain_ok_eq {fs : Fs} {paths : List Path}
    {x : Option (List String)} {fuel : Nat} {ls0 : List (Path × Nat)}
    {tot0 : Nat}
    (hrf : runFiles fs (paths.partition fs.isFile).1 [] 0 = .ok ls0 tot0) :
    locsMain fs paths x fuel =
      if (paths.partition fs.isFile).2.isEmpty then
        some (.ok ls0 tot0)
      else
        match traverse fs (paths.partition fs.isFile).2 x with
        | .panicked => some .panicked
        | .failed e => some (.err ls0 e)
        | .ok t => mainLoop fs fuel t ls0 tot0 := by
  unfold locsMain
  rw [hrf]

/-- C7: in every successfully completed run, the total printed in the
summary equals exactly the sum of the per-file counts of the emitted
output lines. -/
theorem c7_total_is_sum (fs : Fs) (paths : List Path)
    (x : Option (List String)) (fuel : Nat) (ls : List (Path × Nat))
    (total : Nat)
    (h : locsMain fs paths x fuel = some (.ok ls total)) :
    total = (ls.map Prod.snd).sum := by
  cases hrf : runFiles fs (paths.partition fs.isFile).1 [] 0 with
  | err ls0 e0 =>
    rw [locsMain_err_eq hrf] at h
    injection h with h'
    cases h'
  | panicked => exact absurd hrf (runFiles_ne_panicked fs _ _ _)
  | ok ls0 tot0 =>
    rw [locsMain_ok_eq hrf] at h
    obtain ⟨h1, h2, _⟩ := runFiles_ok _ _ _ _ _ hrf
    have hsum0 : tot0 = (ls0.map Prod.snd).sum := by
      rw [h1, h2]
      simp only [List.nil_append, Nat.zero_add, List.map_map]
      rfl
    by_cases hemp : (paths.partition fs.isFile).2.isEmpty
    · rw [if_pos hemp] at h
      injection h with h'
      injection h' with hl ht
      subst hl; subst ht
      exact hsum0
    · rw [if_neg hemp] at h
      cases htr : traverse fs (paths.partition fs.isFile).2 x with
      | panicked => rw [htr] at h; injection h with h'; cases h'
      | failed e => rw [htr] at h; injection h with h'; cases h'
      | ok t =>
        rw [htr] at h
        obtain ⟨dl, hdl1, hdl2⟩ := mainLoop_ok_sum fuel t _ _ _ _ h
        rw [hdl1, hdl2, hsum0]
        simp [List.map_append, List.sum_append]

/-- A pending directory that cannot be opened contributes its open
error as an item of the completed run. -/
theorem run_errors {fs : Fs} :
    ∀ (fuel : Nat) (x : Option (List String)) (ds : List Path)
      (cur : List (Except Nat DirEntry)) (is : List (Except Nat FileInfo))
      (os : List Path),
      run fs fuel ⟨x, ds, cur⟩ = some (is, os) →
      ∀ d ∈ ds, ∀ e, fs.readDir d = .error e → Except.error e ∈ is := by
  intro fuel
  induction fuel with
  | zero => intro x ds cur is os h; cases h
  | succ f ih =>
    intro x ds cur is os h d hd e he
    cases cur with
    | cons en rest =>
      have hso : stepOpened ⟨x, ds, en :: rest⟩ = [] := rfl
      have hmem : d ∈ ds ++ (entryDir fs en).toList :=
        List.mem_append_left _ hd
      cases hr : entryRes fs x en with
      | ok oi =>
        cases oi with
        | none =>
          have hs := step_cons fs x ds en rest
          rw [hr] at hs
          rw [run_succ_cont f hs] at h
          obtain ⟨⟨is', os'⟩, hrun, heq⟩ := Option.map_eq_some'.mp h
          simp only [hso, List.nil_append] at heq
          injection heq with hi ho; subst hi
          exact ih x _ rest is' os' hrun d hmem e he
        | some fi =>
          have hs := step_cons fs x ds en rest
          rw [hr] at hs
          rw [run_succ_yield f hs] at h
          obtain ⟨⟨is', os'⟩, hrun, heq⟩ := Option.map_eq_some'.mp h
          simp only [hso, List.nil_append] at heq
          injection heq with hi ho; subst hi
          exact List.mem_cons_of_mem _ (ih x _ rest is' os' hrun d hmem e he)
      | error er =>
        have hs := step_cons fs x ds en rest
        rw [hr] at hs
        rw [run_succ_yield f hs] at h
        obtain ⟨⟨is', os'⟩, hrun, heq⟩ := Option.map_eq_some'.mp h
        simp only [hso, List.nil_append] at heq
        injection heq with hi ho; subst hi
        exact List.mem_cons_of_mem _ (ih x _ rest is' os' hrun d hmem e he)
    | nil =>
      rcases List.eq_nil_or_concat ds with rfl | ⟨ds', d0, hc⟩
      · cases hd
      · rw [List.concat_eq_append] at hc; subst hc
        have hso := stepOpened_pop x ds' d0
        cases hrd : fs.readDir d0 with
        | error er =>
          have hs : step fs ⟨x, ds' ++ [d0], []⟩ =
              .yieldItem (.error er) ⟨x, ds', []⟩ := by
            simp [step, List.getLast?_concat, List.dropLast_concat, hrd]
          rw [run_succ_yield f hs] at h
          obtain ⟨⟨is', os'⟩, hrun, heq⟩ := Option.map_eq_some'.mp h
          simp only [hso] at heq
          injection heq with hi ho; subst hi
          rcases List.mem_append.mp hd with hd1 | hd2
          · exact List.mem_cons_of_mem _ (ih x ds' [] is' os' hrun d hd1 e he)
          · rw [List.mem_singleton] at hd2
            subst hd2
            rw [hrd] at he
            injection he with he'
            subst he'
            exact List.mem_cons_self _ _
        | ok es =>
          have hs : step fs ⟨x, ds' ++ [d0], []⟩ =
              .cont ⟨x, ds', mkCursor d0 es⟩ := by
            simp [step, List.getLast?_concat, List.dropLast_concat, hrd]
          rw [run_succ_cont f hs] at h
          obtain ⟨⟨is', os'⟩, hrun, heq⟩ := Option.map_eq_some'.mp h
          simp only [hso] at heq
          injection heq with hi ho; subst hi
          rcases List.mem_append.mp hd with hd1 | hd2
          · exact ih x ds' (mkCursor d0 es) is' os' hrun d hd1 e he
          · rw [List.mem_singleton] at hd2
            subst hd2
            rw [hrd] at he
            cases he

theorem traverse_ne_panicked {fs : Fs} {d : Path} {rest : List Path}
    {x : Option (List String)} :
    traverse fs (d :: rest) x ≠ .panicked := by
  intro h
  simp only [traverse] at h
  cases hr : fs.readDir d <;> rw [hr] at h <;> cases h

/-- The traversal loop of `main` computes `consume` of the item
sequence. -/
theorem mainLoop_of_run {fs : Fs} :
    ∀ (fuel : Nat) (t : FileTraverser) (ls : List (Path × Nat))
      (total : Nat) (is : List (Except Nat FileInfo)) (os : List Path),
      run fs fuel t = some (is, os) →
      mainLoop fs fuel t ls total = some (consume is ls total) := by
  intro fuel
  induction fuel with
  | zero => intro t ls total is os h; cases h
  | succ f ih =>
    intro t ls total is os h
    cases hs : step fs t with
    | stop =>
      rw [run_succ_stop f hs] at h
      injection h with h'
      injection h' with hi ho
      subst hi
      simp only [mainLoop, hs]
      rfl
    | yieldItem i t' =>
      rw [run_succ_yield f hs] at h
      obtain ⟨⟨is', os'⟩, hrun, heq⟩ := Option.map_eq_some'.mp h
      injection heq with hi ho
      subst hi
      cases i with
      | error e =>
        simp only [mainLoop, hs]
        rfl
      | ok fi =>
        simp only [mainLoop, hs]
        rw [ih t' _ _ is' os' hrun]
        rfl
    | cont t' =>
      rw [run_succ_cont f hs] at h
      obtain ⟨⟨is', os'⟩, hrun, heq⟩ := Option.map_eq_some'.mp h
      injection heq with hi ho
      subst hi
      simp only [mainLoop, hs]
      exact ih t' _ _ is' os' hrun

theorem consume_err_of_mem :
    ∀ (is : List (Except Nat FileInfo)) (ls : List (Path × Nat))
      (total e : Nat), Except.error e ∈ is →
      ∃ ls' e', consume is ls total = .err ls' e' := by
  intro is
  induction is with
  | nil => intro ls total e h; cases h
  | cons i rest ih =>
    intro ls total e h
    cases i with
    | error e0 => exact ⟨ls, e0, rfl⟩
    | ok fi =>
      rcases List.mem_cons.mp h with h0 | hmem
      · cases h0
      · exact ih _ _ e hmem

theorem mainLoop_mono {fs : Fs} :
    ∀ {fuel fuel' : Nat} {t : FileTraverser} {ls : List (Path × Nat)}
      {total : Nat} {r : RunResult},
      fuel ≤ fuel' → mainLoop fs fuel t ls total = some r →
      mainLoop fs fuel' t ls total = some r := by
  intro fuel
  induction fuel with
  | zero => intro fuel' t ls total r _ h; cases h
  | succ f ih =>
    intro fuel' t ls total r hle h
    obtain ⟨f', rfl⟩ : ∃ f', fuel' = f' + 1 := by
      cases fuel' with
      | zero => omega
      | succ f' => exact ⟨f', rfl⟩
    have hle' : f ≤ f' := by omega
    simp only [mainLoop] at h ⊢
    cases hs : step fs t <;> rw [hs] at h
    case stop => exact h
    case cont t' => exact ih hle' h
    case yieldItem i t' =>
      cases i with
      | error e => exact h
      | ok fi => exact ih hle' h

/-- C9: in a successful mixed invocation, every argument path that is a
regular file is counted directly -- its output line, computed from its
opened content, appears regardless of the extension filter `x` (the
direct-file block of the output does not mention the filter at all) --
and the lines of the traversed directories follow after them. -/
theorem c9_direct_files_unfiltered (fs : Fs) (paths : List Path)
    (x : Option (List String)) (fuel : Nat) (lines : List (Path × Nat))
    (total : Nat)
    (h : locsMain fs paths x fuel = some (.ok lines total)) :
    (∀ p ∈ paths, fs.isFile p = true → ∃ c, fs.openFile p = .ok c) ∧
    ∃ dl, lines = (paths.filter fs.isFile).map
        (fun p => (p, countLines (openedContent fs p))) ++ dl := by
  cases hrf : runFiles fs (paths.partition fs.isFile).1 [] 0 with
  | err ls0 e0 =>
    rw [locsMain_err_eq hrf] at h
    injection h with h'
    cases h'
  | panicked => exact absurd hrf (runFiles_ne_panicked fs _ _ _)
  | ok ls0 tot0 =>
    have hpart : (paths.partition fs.isFile).1 = paths.filter fs.isFile := by
      rw [List.partition_eq_filter_filter]
    rw [locsMain_ok_eq hrf] at h
    obtain ⟨h1, _, h3⟩ := runFiles_ok _ _ _ _ _ hrf
    rw [hpart] at h1 h3
    rw [List.nil_append] at h1
    refine ⟨?_, ?_⟩
    · intro p hp hf
      exact h3 p (List.mem_filter.mpr ⟨hp, hf⟩)
    · by_cases hemp : (paths.partition fs.isFile).2.isEmpty
      · rw [if_pos hemp] at h
        injection h with h'
        injection h' with hl _
        subst hl
        exact ⟨[], by rw [h1, List.append_nil]⟩
      · rw [if_neg hemp] at h
        cases htr : traverse fs (paths.partition fs.isFile).2 x with
        | panicked => rw [htr] at h; injection h with h'; cases h'
        | failed e => rw [htr] at h; injection h with h'; cases h'
        | ok t =>
          rw [htr] at h
          obtain ⟨dl, hdl1, _⟩ := mainLoop_ok_sum fuel t _ _ _ _ h
          exact ⟨dl, by rw [hdl1, h1]⟩

/-- C6: if one of the argument paths is nonexistent (it is not a
regular file and cannot be opened as a directory), the run can never
complete successfully -- the summary line is never printed -- and for
sufficient fuel it aborts with an I/O error, having emitted only the
per-file lines produced before the failure. -/
theorem c6_nonexistent_path_aborts (fs : Fs) (N : Nat)
    (paths : List Path) (x : Option (List String)) (p : Path) (e : Nat)
    (hfin : FiniteFs fs N)
    (hp : p ∈ paths)
    (hnf : fs.isFile p = false)
    (hnd : fs.readDir p = .error e) :
    (∀ fuel ls total, locsMain fs paths x fuel ≠ some (.ok ls total)) ∧
    (∃ fuel ls e', locsMain fs paths x fuel = some (.err ls e')) := by
  have hpdirs : p ∈ (paths.partition fs.isFile).2 := by
    rw [List.partition_eq_filter_filter]
    refine List.mem_filter.mpr ⟨hp, ?_⟩
    simp [hnf]
  cases hrf : runFiles fs (paths.partition fs.isFile).1 [] 0 with
  | err ls0 e0 =>
    constructor
    · intro fuel ls total hok
      rw [locsMain_err_eq hrf] at hok
      injection hok with h'
      cases h'
    · exact ⟨0, ls0, e0, locsMain_err_eq hrf⟩
  | panicked => exact absurd hrf (runFiles_ne_panicked fs _ _ _)
  | ok ls0 tot0 =>
    have hemp : (paths.partition fs.isFile).2.isEmpty = false := by
      rcases hbool : (paths.partition fs.isFile).2.isEmpty with _ | _
      · rfl
      · exact absurd (List.isEmpty_iff.mp hbool)
          (List.ne_nil_of_mem hpdirs)
    cases htr : traverse fs (paths.partition fs.isFile).2 x with
    | panicked =>
      obtain ⟨d0, rest0, hcons⟩ :=
        List.exists_cons_of_ne_nil (List.ne_nil_of_mem hpdirs)
      rw [hcons] at htr
      exact absurd htr traverse_ne_panicked
    | failed e0 =>
      constructor
      · intro fuel ls total hok
        rw [locsMain_ok_eq hrf, if_neg (by rw [hemp]; exact fun hc => by cases hc),
          htr] at hok
        injection hok with h'
        cases h'
      · refine ⟨0, ls0, e0, ?_⟩
        rw [locsMain_ok_eq hrf, if_neg (by rw [hemp]; exact fun hc => by cases hc),
          htr]
    | ok t =>
      obtain ⟨d0, rest0, hcons⟩ :=
        List.exists_cons_of_ne_nil (List.ne_nil_of_mem hpdirs)
      rw [hcons] at htr
      obtain ⟨es0, hrd0, ht⟩ := traverse_ok htr
      -- the error item the bad path produces, once the run completes
      obtain ⟨fuel0, ⟨is, os⟩, hrun⟩ := run_total hfin t
      have herr : ∃ e', Except.error e' ∈ is := by
        rw [hcons] at hpdirs
        rcases List.mem_cons.mp hpdirs with rfl | hmem
        · rw [hrd0] at hnd; cases hnd
        · subst ht
          exact ⟨e, run_errors fuel0 x rest0 (mkCursor d0 es0) is os hrun
            p hmem e hnd⟩
      obtain ⟨e', herr⟩ := herr
      have hml : ∀ ls1 tot1, mainLoop fs fuel0 t ls1 tot1 =
          some (consume is ls1 tot1) := by
        intro ls1 tot1
        exact mainLoop_of_run fuel0 t ls1 tot1 is os hrun
      constructor
      · intro fuel ls total hok
        rw [locsMain_ok_eq hrf, if_neg (by rw [hemp]; exact fun hc => by cases hc),
          hcons, htr] at hok
        obtain ⟨lsx, ex, hcx⟩ := consume_err_of_mem is ls0 tot0 e' herr
        have h1 := mainLoop_mono (Nat.le_max_left fuel fuel0) hok
        have h2 := mainLoop_mono (Nat.le_max_right fuel fuel0)
          ((hml ls0 tot0).trans (by rw [hcx]))
        rw [h1] at h2
        injection h2 with h2'
        cases h2'
      · obtain ⟨lsx, ex, hcx⟩ := consume_err_of_mem is ls0 tot0 e' herr
        refine ⟨fuel0, lsx, ex, ?_⟩
        rw [locsMain_ok_eq hrf, if_neg (by rw [hemp]; exact fun hc => by cases hc),
          hcons, htr]
        show mainLoop fs fuel0 t ls0 tot0 = some (RunResult.err lsx ex)
        rw [hml ls0 tot0, hcx]

/-- C7 witness: in the concrete mixed run the printed total 4 equals
the sum of the emitted per-file counts 2, 1 and 1. -/
theorem c7_witness :
    (4 : Nat) = (([(["f.txt"], 2), (["r", "a.rs"], 1),
      (["r", "sub", "c.rs"], 1)] : List (Path × Nat)).map Prod.snd).sum :=
  c7_total_is_sum fsW [["f.txt"], ["r"]] (some [".rs"]) 20
    [(["f.txt"], 2), (["r", "a.rs"], 1), (["r", "sub", "c.rs"], 1)] 4
    (by decide)

/-- C9 witness: in the concrete mixed run with filter `.rs`, the direct
file `f.txt` (which does not match the filter) is opened and its line
appears first, followed by the traversal lines. -/
theorem c9_witness :
    (∀ p ∈ ([[ "f.txt"], ["r"]] : List Path), fsW.isFile p = true →
      ∃ c, fsW.openFile p = .ok c) ∧
    ∃ dl, ([(["f.txt"], 2), (["r", "a.rs"], 1), (["r", "sub", "c.rs"], 1)] :
        List (Path × Nat)) =
      (([[ "f.txt"], ["r"]] : List Path).filter fsW.isFile).map
        (fun p => (p, countLines (openedContent fsW p))) ++ dl :=
  c9_direct_files_unfiltered fsW [["f.txt"], ["r"]] (some [".rs"]) 20
    [(["f.txt"], 2), (["r", "a.rs"], 1), (["r", "sub", "c.rs"], 1)] 4
    (by decide)

/-- C6 witness: invoking the tool on the nonexistent path `nope` never
completes with a summary, and aborts with an error. -/
theorem c6_witness :
    (∀ fuel ls total,
      locsMain fsW [["nope"]] none fuel ≠ some (.ok ls total)) ∧
    (∃ fuel ls e',
      locsMain fsW [["nope"]] none fuel = some (.err ls e')) :=
  c6_nonexistent_path_aborts fsW 3 [["nope"]] none ["nope"] 7
    fsW_finite (List.mem_singleton_self _) rfl rfl


end Locs
